import Mathlib

/-!
Verification of the clirift threshold-wallet core against its specification.

The development shallowly embeds the TypeScript sources:

* src/crypto/shamir.ts        — polynomial evaluation, Lagrange coefficients
* src/crypto/paillier.ts      — Paillier keygen helpers, encrypt, decrypt, MtA,
                                modulus validation (src/unnamed/part_005)
* src/crypto/secp256k1.ts     — scalar and point arithmetic, Schnorr verifier
* src/crypto/commitment.ts    — DKG-path Schnorr verifier (src/unnamed/part_004)
* src/core/dkg/FeldmanVss.ts  — Feldman commitments and share verification
* src/core/dkg/rounds/*.ts    — DKG record functions (Rounds 1 to 4)
* src/core/signing/rounds/*.ts— signing record functions (Rounds 1 to 4)
* src/core/signing/SigningCoordinator.ts — onRequest and the Round 1 to
                                Round 2 advancement logic
* src/wallet/HdWallet.ts      — BIP32 child-key tweak
* src/network/protocol (validation) — envelope timestamp check

Machine integers: the TypeScript code uses arbitrary-precision bigint, so the
embedding uses Nat (values in the source are non-negative at every embedded
call site) and Int where the source produces negative intermediates.

Elliptic-curve points of secp256k1 form a cyclic group of prime order n
generated by G.  The embedding models a point by its discrete logarithm:
Point := ZMod nOrd, with G = 1, point addition = addition, and scalar
multiplication = multiplication by the scalar cast into ZMod nOrd.  This is
the exponent model of the group: it is isomorphic to the curve group, the
compressed serialization used by pointToHex is injective, so point-equality
comparisons in the source become equality in ZMod nOrd.  Scalar
multiplication wraps modulo the group order, following the specification
(section 4.3: elliptic-curve multiplication wraps modulo group order
naturally); the hash functions SHA-256, HMAC-SHA512 and keccak256 are
external library calls and are taken as parameters.
-/

namespace Clirift

/-- Order of the secp256k1 group (the constant CURVE_ORDER = secp256k1.CURVE.n
in src/crypto/secp256k1.ts). -/
def nOrd : ℕ := 0xFFFFFFFFFFFFFFFFFFFFFFFFFFFFFFFEBAAEDCE6AF48A03BBFD25E8CD0364141

instance : NeZero nOrd := ⟨by decide⟩

instance : Fact (1 < nOrd) := ⟨by decide⟩

/-- The modulus applied to the Feldman exponent accumulator:
BigInt of 64 hex digits f, that is 2 ^ 256 - 1 (FeldmanVss.ts line 415). -/
def feldmanExpMod : ℕ := 2 ^ 256 - 1

/-- Modular exponentiation, the modPow helper of paillier.ts (and the
identical one in secp256k1.ts): square-and-multiply with the base reduced
first and the accumulator reduced at every step. -/
def modPow (b e m : ℕ) : ℕ :=
  if e = 0 then 1
  else
    let b' := b % m
    let rest := modPow (b' * b' % m) (e / 2) m
    if e % 2 = 1 then b' * rest % m else rest
termination_by e
decreasing_by exact Nat.div_lt_self (Nat.pos_of_ne_zero (by assumption)) one_lt_two

/-- Loop of the extended Euclidean algorithm of modInv (paillier.ts and
shamir.ts): state (old_r, r, old_s, s); while r is nonzero it updates to
(r, old_r mod r, s, old_s - (old_r / r) * s) and finally returns old_s.
The r-sequence stays non-negative (both inputs are non-negative), so the
remainders are tracked in Nat while the Bezout coefficient lives in Int. -/
def xgcdAux (r0 r1 : ℕ) (s0 s1 : ℤ) : ℤ :=
  if r1 = 0 then s0
  else xgcdAux r1 (r0 % r1) s1 (s0 - (r0 / r1 : ℕ) * s1)
termination_by r1
decreasing_by exact Nat.mod_lt _ (Nat.pos_of_ne_zero (by assumption))

/-- The modInv helper of paillier.ts / shamir.ts: extended Euclid followed by
normalization of the Bezout coefficient into [0, m). -/
def modInv (a m : ℕ) : ℕ := (((xgcdAux a m 1 0) % (m : ℤ) + m) % (m : ℤ)).toNat

/-- Newton iteration of the isqrt helper in paillier.ts: with current
estimate x the next estimate is (x + n / x) / 2; the loop stops as soon as
the estimate stops decreasing.  The first argument is structural fuel so
that the kernel can evaluate the function; the estimate strictly decreases
on every iteration, so starting the fuel at the first estimate makes the
fuel unreachable (isqrtGo_eq below does not depend on its exact value). -/
def isqrtGo (n : ℕ) : ℕ → ℕ → ℕ
  | 0, x => x
  | fuel + 1, x =>
      if (x + n / x) / 2 < x then isqrtGo n fuel ((x + n / x) / 2) else x

/-- The isqrt helper of paillier.ts (integer square root by Newton method).
The source starts from x = n with first estimate (x + 1) / 2, which for
positive n equals (x + n / x) / 2, so the whole computation is isqrtGo n n;
for n = 0 the source loop exits immediately with 0. -/
def isqrt (n : ℕ) : ℕ := if n = 0 then 0 else isqrtGo n n n

-- ---------------------------------------------------------------------------
-- Correctness of the helpers
-- ---------------------------------------------------------------------------

theorem modPow_eq (e : ℕ) : ∀ b m : ℕ, 1 < m → modPow b e m = b ^ e % m := by
  induction e using Nat.strong_induction_on with
  | _ e ih =>
    intro b m hm
    rw [modPow]
    by_cases he : e = 0
    · simp [he, Nat.mod_eq_of_lt hm]
    · simp only [he, if_false]
      have hrec := ih (e / 2) (Nat.div_lt_self (Nat.pos_of_ne_zero he) one_lt_two)
        (b % m * (b % m) % m) m hm
      simp only [hrec]
      have hbase : (b % m * (b % m) % m) ^ (e / 2) % m = (b * b) ^ (e / 2) % m := by
        conv_lhs => rw [Nat.pow_mod]
        rw [Nat.mod_mod_of_dvd _ dvd_rfl, ← Nat.mul_mod, ← Nat.pow_mod]
      rw [hbase]
      by_cases hodd : e % 2 = 1
      · simp only [hodd, if_true]
        rw [← Nat.mul_mod]
        congr 1
        rw [← pow_two, ← pow_mul, ← pow_succ']
        congr 1
        omega
      · simp only [hodd, if_false]
        congr 1
        rw [← pow_two, ← pow_mul]
        congr 1
        omega

theorem xgcdAux_spec (a m : ℕ) : ∀ r1 r0 : ℕ, ∀ s0 s1 : ℤ,
    s0 * a ≡ r0 [ZMOD m] → s1 * a ≡ r1 [ZMOD m] →
    xgcdAux r0 r1 s0 s1 * a ≡ Nat.gcd r0 r1 [ZMOD m] := by
  intro r1
  induction r1 using Nat.strong_induction_on with
  | _ r1 ih =>
    intro r0 s0 s1 h0 h1
    rw [xgcdAux]
    by_cases hr : r1 = 0
    · subst hr
      rw [if_pos rfl, Nat.gcd_zero_right]
      exact h0
    · rw [if_neg hr]
      have hlt : r0 % r1 < r1 := Nat.mod_lt _ (Nat.pos_of_ne_zero hr)
      have hmod : ((r0 % r1 : ℕ) : ℤ) = (r0 : ℤ) - (r0 / r1 : ℕ) * r1 := by
        push_cast
        rw [eq_sub_iff_add_eq]
        exact Int.emod_add_ediv' (r0 : ℤ) r1
      have h2 : (s0 - (r0 / r1 : ℕ) * s1) * a ≡ (r0 % r1 : ℕ) [ZMOD m] := by
        rw [hmod]
        calc (s0 - (r0 / r1 : ℕ) * s1) * a
            = s0 * a - (r0 / r1 : ℕ) * (s1 * a) := by ring
          _ ≡ r0 - (r0 / r1 : ℕ) * r1 [ZMOD m] :=
            Int.ModEq.sub h0 (Int.ModEq.mul_left _ h1)
      have hrew : Nat.gcd r0 r1 = Nat.gcd r1 (r0 % r1) := by
        rw [Nat.gcd_comm r0 r1, Nat.gcd_rec r1 r0, Nat.gcd_comm]
      rw [hrew]
      exact ih (r0 % r1) hlt r1 s1 _ h1 h2

theorem modInv_spec {a m : ℕ} (hm : 1 < m) (h : Nat.Coprime a m) :
    modInv a m * a % m = 1 := by
  have h1 : (1 : ℤ) * a ≡ (a : ℕ) [ZMOD m] := by
    rw [one_mul]
  have h0 : (0 : ℤ) * a ≡ (m : ℕ) [ZMOD m] := by
    show (0 * a) % (m : ℤ) = ((m : ℕ) : ℤ) % m
    rw [zero_mul, Int.zero_emod, Int.emod_self]
  have hx : xgcdAux a m 1 0 * a ≡ (Nat.gcd a m : ℕ) [ZMOD m] :=
    xgcdAux_spec a m m a 1 0 h1 h0
  rw [h] at hx
  set X := xgcdAux a m 1 0 with hX
  set Y : ℤ := (X % (m : ℤ) + m) % (m : ℤ) with hY
  have hm0 : (0 : ℤ) < m := by exact_mod_cast Nat.lt_of_lt_of_le Nat.zero_lt_one hm.le
  have hYnn : 0 ≤ Y := Int.emod_nonneg _ (by omega)
  have hYX : Y ≡ X [ZMOD m] := by
    show Y % (m : ℤ) = X % m
    rw [hY, Int.emod_emod_of_dvd _ dvd_rfl,
      show X % (m : ℤ) + (m : ℤ) = X % m + m * 1 by ring,
      Int.add_mul_emod_self_left, Int.emod_emod_of_dvd _ dvd_rfl]
  have hgoal : (Y * a) % (m : ℤ) = 1 := by
    have : Y * a ≡ 1 [ZMOD m] := (hYX.mul_right _).trans (by exact_mod_cast hx)
    have h1m : (1 : ℤ) % m = 1 := Int.emod_eq_of_lt (by omega) (by exact_mod_cast hm)
    calc (Y * a) % (m : ℤ) = (1 : ℤ) % m := this
      _ = 1 := h1m
  have : ((modInv a m * a % m : ℕ) : ℤ) = 1 := by
    show (((Y.toNat) * a % m : ℕ) : ℤ) = 1
    push_cast
    rw [Int.toNat_of_nonneg hYnn]
    exact hgoal
  exact_mod_cast this

theorem isqrt_newton_ge (n x : ℕ) (hx : 0 < x) : Nat.sqrt n ≤ (x + n / x) / 2 := by
  set s := Nat.sqrt n with hs
  rw [Nat.le_div_iff_mul_le (by omega : 0 < 2)]
  by_cases hx2 : s * 2 ≤ x
  · exact le_trans hx2 (Nat.le_add_right x (n / x))
  · have hxle : x ≤ s * 2 := by omega
    have key : (s * 2 - x) * x ≤ s * s := by
      zify [hxle]
      nlinarith [sq_nonneg ((s : ℤ) - x)]
    have hdiv : s * 2 - x ≤ n / x :=
      (Nat.le_div_iff_mul_le hx).mpr (key.trans (Nat.sqrt_le n))
    omega

theorem isqrt_newton_lt (n x : ℕ) (hx : Nat.sqrt n < x) : (x + n / x) / 2 < x := by
  have h1 : n / x ≤ Nat.sqrt n := by
    have h2 : n / x < Nat.sqrt n + 1 := by
      rw [Nat.div_lt_iff_lt_mul (by omega : 0 < x)]
      calc n < (Nat.sqrt n).succ * (Nat.sqrt n).succ := Nat.lt_succ_sqrt n
        _ ≤ (Nat.sqrt n + 1) * x := by
          apply Nat.mul_le_mul_left
          omega
    omega
  omega

theorem isqrtGo_eq (n : ℕ) : ∀ fuel x, x ≤ fuel → Nat.sqrt n ≤ x →
    isqrtGo n fuel x = Nat.sqrt n := by
  intro fuel
  induction fuel with
  | zero =>
    intro x hxf hsx
    have hx0 : x = 0 := Nat.le_zero.mp hxf
    subst hx0
    exact (Nat.le_zero.mp hsx).symm
  | succ fuel ih =>
    intro x hxf hsx
    rw [isqrtGo]
    by_cases h : (x + n / x) / 2 < x
    · rw [if_pos h]
      have hxpos : 0 < x := Nat.lt_of_le_of_lt (Nat.zero_le _) h
      exact ih _ (by omega) (isqrt_newton_ge n x hxpos)
    · rw [if_neg h]
      rcases Nat.lt_or_ge (Nat.sqrt n) x with hlt | hge
      · exact absurd (isqrt_newton_lt n x hlt) h
      · exact le_antisymm hge hsx

theorem isqrt_eq (n : ℕ) : isqrt n = Nat.sqrt n := by
  rw [isqrt]
  by_cases hn : n = 0
  · simp [hn]
  · rw [if_neg hn]
    exact isqrtGo_eq n n n le_rfl (Nat.sqrt_le_self n)

theorem isqrt_sq_iff (n : ℕ) : isqrt n * isqrt n = n ↔ IsSquare n := by
  rw [isqrt_eq]
  constructor
  · intro h
    exact ⟨Nat.sqrt n, h.symm⟩
  · rintro ⟨r, hr⟩
    rw [← (Nat.exists_mul_self n)]
    exact ⟨r, hr.symm⟩

-- ---------------------------------------------------------------------------
-- Exponent model of the secp256k1 group (see the header comment)
-- ---------------------------------------------------------------------------

/-- A curve point, modelled by its discrete logarithm with respect to G. -/
abbrev Point := ZMod nOrd

/-- scalarMulG of secp256k1.ts: scalar times the base point.  The underlying
noble-curves multiply accepts only scalars in [1, n) and throws otherwise;
the model is total (the scalar wraps modulo the group order), so a statement
about a concrete program path must feed this function scalars from [1, n)
for that path to be realizable in the source. -/
def scalarMulG (s : ℕ) : Point := (s : Point)

/-- scalarMulPoint of secp256k1.ts: scalar times an arbitrary point.  The
scalar wraps modulo the group order (specification section 4.3); the same
[1, n) domain caveat as for scalarMulG applies to concrete program paths. -/
def scalarMulPoint (s : ℕ) (P : Point) : Point := (s : Point) * P

/-- pointAdd of secp256k1.ts. -/
def pointAdd (P Q : Point) : Point := P + Q

-- ---------------------------------------------------------------------------
-- shamir.ts
-- ---------------------------------------------------------------------------

/-- Loop body of evaluatePolynomial (shamir.ts lines 32 to 43): the
accumulator result collects coeff * xPow mod n and xPow is multiplied by x
mod n at each step. -/
def evalPolyAux (x : ℕ) : List ℕ → ℕ → ℕ → ℕ
  | [], result, _ => result
  | c :: rest, result, xPow => evalPolyAux x rest ((result + c * xPow) % nOrd) (xPow * x % nOrd)

/-- evaluatePolynomial of shamir.ts.  All coefficients at the embedded call
sites are non-negative, so bigint arithmetic is Nat arithmetic and the final
sign normalization is the plain remainder. -/
def evaluatePolynomial (coefficients : List ℕ) (x : ℕ) : ℕ :=
  (evalPolyAux x coefficients 0 1 % nOrd + nOrd) % nOrd

/-- Loop of lagrangeCoefficient (shamir.ts lines 52 to 69): num accumulates
j mod n (skipping j = partyIndex) and stays non-negative; den accumulates
(j - partyIndex) with the truncated bigint remainder, which can be negative,
so it is tracked in Int with Int.tmod (the remainder operation of bigint). -/
def lagrangeAux (partyIndex : ℕ) : List ℕ → ℕ → ℤ → ℕ × ℤ
  | [], num, den => (num, den)
  | j :: rest, num, den =>
      if j = partyIndex then lagrangeAux partyIndex rest num den
      else lagrangeAux partyIndex rest (num * j % nOrd)
        (Int.tmod (den * ((j : ℤ) - (partyIndex : ℤ))) nOrd)

/-- lagrangeCoefficient of shamir.ts: after the loop the denominator is
normalized into [0, n) and inverted with modInv. -/
def lagrangeCoefficient (partyIndex : ℕ) (allIndices : List ℕ) : ℕ :=
  let acc := lagrangeAux partyIndex allIndices 1 1
  let den := Int.tmod (Int.tmod acc.2 nOrd + nOrd) nOrd
  acc.1 * modInv den.toNat nOrd % nOrd

-- ---------------------------------------------------------------------------
-- FeldmanVss.ts
-- ---------------------------------------------------------------------------

/-- feldmanCommitments: one base-point multiple per coefficient. -/
def feldmanCommitments (coefficients : List ℕ) : List Point :=
  coefficients.map (fun c => scalarMulG c)

/-- Loop of verifyFeldmanShare (FeldmanVss.ts lines 410 to 416): the running
exponent iPow is multiplied by the party index and reduced modulo
2 ^ 256 - 1 (the literal BigInt of 64 hex digits f) after each term. -/
def feldmanRhsLoop (partyIndex : ℕ) : List Point → ℕ → Option Point → Option Point
  | [], _, rhs => rhs
  | c :: rest, iPow, rhs =>
      let term := if iPow = 1 then c else scalarMulPoint iPow c
      let acc : Point := match rhs with
        | none => term
        | some acc => pointAdd acc term
      feldmanRhsLoop partyIndex rest (iPow * partyIndex % feldmanExpMod) (some acc)

/-- verifyFeldmanShare of FeldmanVss.ts: share times G against the
accumulated right-hand side; an empty commitment list is rejected. -/
def verifyFeldmanShare (share : ℕ) (partyIndex : ℕ) (commitments : List Point) : Bool :=
  match feldmanRhsLoop partyIndex commitments 1 none with
  | none => false
  | some rhs => decide (scalarMulG share = rhs)

/-- combinePkMaster of FeldmanVss.ts: sum of the intercept commitments;
an empty list throws, modelled as none. -/
def combinePkMaster (commitments : List Point) : Option Point :=
  match commitments with
  | [] => none
  | h :: t => some (t.foldl pointAdd h)

-- ---------------------------------------------------------------------------
-- DKG Round 4 (rounds/Round4.ts) — key-share assembly
-- ---------------------------------------------------------------------------

/-- Key-share assembly of executeRound4 (Round4.ts lines 26 to 36) for party
i of the ceremony whose polynomials are fs (party j uses fs at position
j - 1): the own share f_i(i) plus every received share f_j(i), each addition
reduced mod n, with the final sign normalization of the source. -/
def executeRound4KeyShare (fs : List (List ℕ)) (i : ℕ) : ℕ :=
  let myOwnShare := evaluatePolynomial (fs.getD (i - 1) []) i
  let summed := ((fs.eraseIdx (i - 1)).map (fun f => evaluatePolynomial f i)).foldl
      (fun acc s => (acc + s) % nOrd) myOwnShare
  (summed % nOrd + nOrd) % nOrd

/-- Master public key assembled in assemblePkMaster (Round4.ts lines 86 to
102): combinePkMaster over the intercept commitments, which are the first
Feldman commitment of every party, that is scalarMulG of each constant
coefficient. -/
def dkgMasterPk (fs : List (List ℕ)) : Option Point :=
  combinePkMaster (fs.map (fun f => scalarMulG (f.headD 0)))

-- ---------------------------------------------------------------------------
-- paillier.ts
-- ---------------------------------------------------------------------------

/-- Typed error kinds of utils/errors.ts (the subset the embedding needs). -/
inductive ErrorKind
  | dkg
  | signing
  | validation
deriving DecidableEq

/-- A thrown CLIRiftError subclass: its class and message. -/
structure ProtoError where
  kind : ErrorKind
  message : String
deriving DecidableEq

/-- PaillierPrivateKey of paillier.ts. -/
structure PaillierPrivateKey where
  n : ℕ
  n2 : ℕ
  lambda : ℕ
  mu : ℕ

/-- Deterministic part of generatePaillierKey (paillier.ts lines 124 to
137) applied to the two sampled primes p and q: N = p q, N2 = N N,
lambda = lcm (p-1) (q-1), mu = modInv lambda N. -/
def generatePaillierKeyOf (p q : ℕ) : PaillierPrivateKey :=
  { n := p * q
    n2 := p * q * (p * q)
    lambda := Nat.lcm (p - 1) (q - 1)
    mu := modInv (Nat.lcm (p - 1) (q - 1)) (p * q) }

/-- The L function of paillier.ts: L(x) = (x - 1) / n. -/
def paillierL (x n : ℕ) : ℕ := (x - 1) / n

/-- paillierEncrypt of paillier.ts with the sampled randomness r made an
explicit argument (the source draws r uniformly from [1, N)). -/
def paillierEncrypt (n m r : ℕ) : ℕ :=
  let n2 := n * n
  let mMod := m % n
  let g_m := (1 + n * mMod) % n2
  let r_n := modPow r n n2
  g_m * r_n % n2

/-- paillierDecrypt of paillier.ts. -/
def paillierDecrypt (key : PaillierPrivateKey) (c : ℕ) : ℕ :=
  paillierL (modPow c key.lambda key.n2) key.n * key.mu % key.n

/-- paillierMtA of paillier.ts, with the randomness r2 of the inner
paillierEncrypt call made an explicit argument. -/
def paillierMtA (n ciphertext multiplier beta r2 : ℕ) : ℕ :=
  let n2 := n * n
  let mult := multiplier % n
  let scaled := modPow ciphertext mult n2
  let blindEnc := paillierEncrypt n (beta % n) r2
  scaled * blindEnc % n2

/-- validatePaillierModulus of paillier.ts: the four checks in source
order, each throwing a SigningError. -/
def validatePaillierModulus (n : ℕ) : Except ProtoError Unit :=
  if n % 2 = 0 then
    .error ⟨.signing, "Paillier modulus is even"⟩
  else if n < 2 ^ 1022 then
    .error ⟨.signing, "Paillier modulus is too small"⟩
  else if Nat.gcd n nOrd ≠ 1 then
    .error ⟨.signing, "Paillier modulus shares a factor with the curve order"⟩
  else if isqrt n * isqrt n = n then
    .error ⟨.signing, "Paillier modulus is a perfect square"⟩
  else
    .ok ()

-- ---------------------------------------------------------------------------
-- Paillier correctness (claim C2 infrastructure)
-- ---------------------------------------------------------------------------

/-- Binomial congruence: with g = N + 1, g to the k is 1 + N t k modulo
N squared. -/
theorem one_add_mul_pow_modEq (N t : ℕ) :
    ∀ k : ℕ, (1 + N * t) ^ k ≡ 1 + N * (t * k) [MOD N * N] := by
  intro k
  induction k with
  | zero => simpa using Nat.ModEq.refl 1
  | succ k ih =>
    calc (1 + N * t) ^ (k + 1)
        = (1 + N * t) ^ k * (1 + N * t) := by rw [pow_succ]
      _ ≡ (1 + N * (t * k)) * (1 + N * t) [MOD N * N] := ih.mul_right _
      _ = 1 + N * (t * (k + 1)) + N * N * (t * (t * k)) := by ring
      _ ≡ 1 + N * (t * (k + 1)) [MOD N * N] := by
          show (1 + N * (t * (k + 1)) + N * N * (t * (t * k))) % (N * N)
            = (1 + N * (t * (k + 1))) % (N * N)
          rw [Nat.add_mul_mod_self_left]

/-- Carmichael-style exponent identity: a residue coprime to N = p q raised
to the power N lcm (p-1) (q-1) is 1 modulo N squared.  Proved through Euler
on p squared and q squared separately and the Chinese remainder theorem. -/
theorem pow_n_lcm_modEq {p q : ℕ} (hp : p.Prime) (hq : q.Prime) (hpq : p ≠ q)
    {s : ℕ} (hs : Nat.Coprime s (p * q)) :
    s ^ (p * q * Nat.lcm (p - 1) (q - 1)) ≡ 1 [MOD p * q * (p * q)] := by
  have hhalf : ∀ a b : ℕ, a.Prime → Nat.Coprime s a → (a - 1) ∣ Nat.lcm (p - 1) (q - 1) →
      a ∣ p * q → s ^ (p * q * Nat.lcm (p - 1) (q - 1)) ≡ 1 [MOD a ^ 2] := by
    intro a b ha hsa hdvd hadvd
    have htot : (a ^ 2).totient = a * (a - 1) := by
      rw [Nat.totient_prime_pow ha (by omega : 0 < 2)]
      rw [pow_one]
    have heuler : s ^ (a ^ 2).totient ≡ 1 [MOD a ^ 2] :=
      Nat.ModEq.pow_totient (hsa.pow_right 2)
    obtain ⟨m, hm⟩ := hdvd
    obtain ⟨w, hw⟩ := hadvd
    have hexp : p * q * Nat.lcm (p - 1) (q - 1) = (a ^ 2).totient * (w * m) := by
      rw [htot, hm, hw]
      ring
    calc s ^ (p * q * Nat.lcm (p - 1) (q - 1))
        = (s ^ (a ^ 2).totient) ^ (w * m) := by rw [hexp, pow_mul]
      _ ≡ 1 ^ (w * m) [MOD a ^ 2] := heuler.pow _
      _ = 1 := one_pow _
  have hsp : Nat.Coprime s p := Nat.Coprime.coprime_dvd_right (Dvd.intro q rfl) hs
  have hsq : Nat.Coprime s q := Nat.Coprime.coprime_dvd_right (Dvd.intro_left p rfl) hs
  have h1 : s ^ (p * q * Nat.lcm (p - 1) (q - 1)) ≡ 1 [MOD p ^ 2] :=
    hhalf p q hp hsp (Nat.dvd_lcm_left _ _) (Dvd.intro q rfl)
  have h2 : s ^ (p * q * Nat.lcm (p - 1) (q - 1)) ≡ 1 [MOD q ^ 2] :=
    hhalf q p hq hsq (Nat.dvd_lcm_right _ _) (Dvd.intro_left p rfl)
  have hco : Nat.Coprime (p ^ 2) (q ^ 2) :=
    ((Nat.coprime_primes hp hq).mpr hpq).pow 2 2
  have := (Nat.modEq_and_modEq_iff_modEq_mul hco).mp ⟨h1, h2⟩
  have heq : p ^ 2 * q ^ 2 = p * q * (p * q) := by ring
  rwa [heq] at this

/-- Decryption of any value congruent to (1 + N t) s^N with s coprime to N
recovers t mod N.  This is the shared backbone of both conjuncts of the
Paillier claim. -/
theorem paillierDecrypt_form {p q : ℕ} (hp : p.Prime) (hq : q.Prime) (hpq : p ≠ q)
    (hco : Nat.Coprime (Nat.lcm (p - 1) (q - 1)) (p * q))
    {t s c : ℕ} (hs : Nat.Coprime s (p * q))
    (hc : c ≡ (1 + p * q * t) * s ^ (p * q) [MOD p * q * (p * q)]) :
    paillierDecrypt (generatePaillierKeyOf p q) c = t % (p * q) := by
  set N := p * q with hN
  have hp2 := hp.two_le
  have hq2 := hq.two_le
  have hN1 : 1 < N := by
    calc 1 < 2 * 2 := by omega
      _ ≤ p * q := Nat.mul_le_mul hp2 hq2
  have hN0 : 0 < N := by omega
  have hN2 : 1 < N * N := by
    calc 1 < 1 * 1 + 1 := by omega
      _ ≤ N * N := by nlinarith
  set lam := Nat.lcm (p - 1) (q - 1) with hlam
  set t' := t * lam % N with ht'
  -- the decryption exponentiation
  have hx : modPow c lam (N * N) = c ^ lam % (N * N) := modPow_eq lam c (N * N) hN2
  have hchain : c ^ lam ≡ 1 + N * t' [MOD N * N] := by
    calc c ^ lam
        ≡ ((1 + N * t) * s ^ N) ^ lam [MOD N * N] := hc.pow _
      _ = (1 + N * t) ^ lam * s ^ (N * lam) := by
          rw [mul_pow, ← pow_mul]
      _ ≡ (1 + N * (t * lam)) * 1 [MOD N * N] :=
          Nat.ModEq.mul (one_add_mul_pow_modEq N t lam) (pow_n_lcm_modEq hp hq hpq hs)
      _ = 1 + N * (t * lam) := by ring
      _ ≡ 1 + N * t' [MOD N * N] :=
          Nat.ModEq.add_left 1 ((Nat.mod_modEq (t * lam) N).symm.mul_left' N)
  have ht'lt : t' < N := Nat.mod_lt _ hN0
  have hsmall : 1 + N * t' < N * N := by nlinarith
  have hxval : c ^ lam % (N * N) = 1 + N * t' := by
    have := hchain
    unfold Nat.ModEq at this
    rw [this, Nat.mod_eq_of_lt hsmall]
  -- the L function and the final multiplication by mu
  have hL : paillierL (1 + N * t') N = t' := by
    unfold paillierL
    rw [Nat.add_sub_cancel_left]
    exact Nat.mul_div_cancel_left t' hN0
  have hmu : modInv lam N * lam % N = 1 := modInv_spec hN1 hco
  show paillierL (modPow c lam (N * N)) N * modInv lam N % N = t % N
  rw [hx, hxval, hL]
  have hmu' : modInv lam N * lam ≡ 1 [MOD N] := by
    unfold Nat.ModEq
    rw [hmu, Nat.mod_eq_of_lt hN1]
  calc t' * modInv lam N % N
      = t * lam % N * modInv lam N % N := by rw [ht']
    _ = t * lam * modInv lam N % N := by
        rw [Nat.mod_mul_mod]
    _ = t * (modInv lam N * lam) % N := by ring_nf
    _ = t * (modInv lam N * lam) % N % N := by rw [Nat.mod_mod_of_dvd _ dvd_rfl]
    _ = t % N := by
        have : t * (modInv lam N * lam) ≡ t * 1 [MOD N] := hmu'.mul_left t
        unfold Nat.ModEq at this
        rw [Nat.mod_mod_of_dvd _ dvd_rfl, this, mul_one]

/-- The ciphertext produced by paillierEncrypt is congruent to
(1 + N (m mod N)) r^N modulo N squared. -/
theorem paillierEncrypt_form {n : ℕ} (hn : 1 < n) (m r : ℕ) :
    paillierEncrypt n m r ≡ (1 + n * (m % n)) * r ^ n [MOD n * n] := by
  have hn2 : 1 < n * n := by nlinarith
  show (1 + n * (m % n)) % (n * n) * modPow r n (n * n) % (n * n)
    ≡ (1 + n * (m % n)) * r ^ n [MOD n * n]
  rw [modPow_eq n r (n * n) hn2]
  calc (1 + n * (m % n)) % (n * n) * (r ^ n % (n * n)) % (n * n)
      ≡ (1 + n * (m % n)) % (n * n) * (r ^ n % (n * n)) [MOD n * n] :=
        Nat.mod_modEq _ _
    _ ≡ (1 + n * (m % n)) * r ^ n [MOD n * n] :=
        Nat.ModEq.mul (Nat.mod_modEq _ _) (Nat.mod_modEq _ _)

/-- The product of two binomial-form values is again of binomial form. -/
theorem binomial_mul_modEq (N x y : ℕ) :
    (1 + N * x) * (1 + N * y) ≡ 1 + N * (x + y) [MOD N * N] := by
  calc (1 + N * x) * (1 + N * y)
      = 1 + N * (x + y) + N * N * (x * y) := by ring
    _ ≡ 1 + N * (x + y) [MOD N * N] := by
        show (1 + N * (x + y) + N * N * (x * y)) % (N * N) = (1 + N * (x + y)) % (N * N)
        rw [Nat.add_mul_mod_self_left]

/-- Claim C2.  For every Paillier keypair derived by generatePaillierKey from
two distinct primes p and q (so N = p q, lambda = lcm (p-1) (q-1) and
mu = modInv lambda N, which the source takes to be the inverse of lambda, so
lambda is assumed coprime to N), and for every plaintext m, MtA inputs a, b,
beta, and encryption randomness r, ra, rb drawn by the source from [1, N)
and coprime to N (the source comments note r is coprime to N with
overwhelming probability): decrypting an encryption of m yields m mod N, and
decrypting the MtA ciphertext built from an encryption of a, multiplier b
and blinding beta yields a b + beta mod N. -/
theorem claim_C2_paillier_roundtrip_and_mta (p q m a b beta r ra rb : ℕ)
    (hp : p.Prime) (hq : q.Prime) (hpq : p ≠ q)
    (hlam : Nat.Coprime (Nat.lcm (p - 1) (q - 1)) (p * q))
    (hr : Nat.Coprime r (p * q)) (hra : Nat.Coprime ra (p * q))
    (hrb : Nat.Coprime rb (p * q)) :
    paillierDecrypt (generatePaillierKeyOf p q) (paillierEncrypt (p * q) m r)
        = m % (p * q) ∧
    paillierDecrypt (generatePaillierKeyOf p q)
        (paillierMtA (p * q) (paillierEncrypt (p * q) a ra) b beta rb)
        = (a * b + beta) % (p * q) := by
  have hN1 : 1 < p * q := by
    have := hp.two_le
    have := hq.two_le
    nlinarith
  have hN2 : 1 < p * q * (p * q) := by nlinarith
  set N := p * q with hN
  constructor
  · -- decrypt of encrypt
    have hform := paillierEncrypt_form hN1 m r
    have := paillierDecrypt_form hp hq hpq hlam hr hform
    rw [this, Nat.mod_mod_of_dvd _ dvd_rfl]
  · -- decrypt of the MtA ciphertext
    set a' := a % N with ha'
    set b' := b % N with hb'
    set beta' := beta % N with hbeta'
    set C := paillierEncrypt N a ra with hC
    set EncB := paillierEncrypt N (beta % N) rb with hEncB
    have h1 : paillierMtA N C b beta rb ≡ C ^ b' * EncB [MOD N * N] := by
      show modPow C (b % N) (N * N) * EncB % (N * N) ≡ C ^ b' * EncB [MOD N * N]
      rw [modPow_eq (b % N) C (N * N) hN2]
      calc C ^ b' % (N * N) * EncB % (N * N)
          ≡ C ^ b' % (N * N) * EncB [MOD N * N] := Nat.mod_modEq _ _
        _ ≡ C ^ b' * EncB [MOD N * N] :=
            Nat.ModEq.mul (Nat.mod_modEq _ _) (Nat.ModEq.refl _)
    have h2 : C ^ b' ≡ (1 + N * a') ^ b' * (ra ^ b') ^ N [MOD N * N] := by
      calc C ^ b'
          ≡ ((1 + N * a') * ra ^ N) ^ b' [MOD N * N] := (paillierEncrypt_form hN1 a ra).pow _
        _ = (1 + N * a') ^ b' * (ra ^ b') ^ N := by
            rw [mul_pow, ← pow_mul, mul_comm N b', pow_mul]
    have h3 : EncB ≡ (1 + N * beta') * rb ^ N [MOD N * N] := by
      have := paillierEncrypt_form hN1 (beta % N) rb
      rwa [Nat.mod_mod_of_dvd _ dvd_rfl] at this
    have hc : paillierMtA N C b beta rb
        ≡ (1 + N * (a' * b' + beta')) * (ra ^ b' * rb) ^ N [MOD N * N] := by
      calc paillierMtA N C b beta rb
          ≡ C ^ b' * EncB [MOD N * N] := h1
        _ ≡ ((1 + N * a') ^ b' * (ra ^ b') ^ N) * ((1 + N * beta') * rb ^ N)
            [MOD N * N] := Nat.ModEq.mul h2 h3
        _ = ((1 + N * a') ^ b' * (1 + N * beta')) * ((ra ^ b') ^ N * rb ^ N) := by
            ring
        _ ≡ ((1 + N * (a' * b')) * (1 + N * beta')) * ((ra ^ b') ^ N * rb ^ N)
            [MOD N * N] :=
            Nat.ModEq.mul (Nat.ModEq.mul_right _ (one_add_mul_pow_modEq N a' b'))
              (Nat.ModEq.refl _)
        _ ≡ (1 + N * (a' * b' + beta')) * ((ra ^ b') ^ N * rb ^ N) [MOD N * N] :=
            Nat.ModEq.mul_right _ (binomial_mul_modEq N (a' * b') beta')
        _ = (1 + N * (a' * b' + beta')) * (ra ^ b' * rb) ^ N := by
            rw [mul_pow]
    have hs : Nat.Coprime (ra ^ b' * rb) N := Nat.Coprime.mul (hra.pow_left _) hrb
    have := paillierDecrypt_form hp hq hpq hlam hs hc
    rw [this]
    have hcong : a' * b' + beta' ≡ a * b + beta [MOD N] :=
      Nat.ModEq.add (Nat.ModEq.mul (Nat.mod_modEq a N) (Nat.mod_modEq b N))
        (Nat.mod_modEq beta N)
    exact hcong

/-- Witness for claim C2 at p = 5, q = 7 (N = 35, lambda = 12, mu = 3),
message m = 2, MtA inputs a = 2, b = 3, beta = 4, all randomness coprime
to 35. -/
theorem claim_C2_witness :
    paillierDecrypt (generatePaillierKeyOf 5 7) (paillierEncrypt (5 * 7) 2 2)
        = 2 % (5 * 7) ∧
    paillierDecrypt (generatePaillierKeyOf 5 7)
        (paillierMtA (5 * 7) (paillierEncrypt (5 * 7) 2 3) 3 4 6)
        = (2 * 3 + 4) % (5 * 7) :=
  claim_C2_paillier_roundtrip_and_mta 5 7 2 2 3 4 2 3 6
    (by decide) (by decide) (by decide) (by decide) (by decide) (by decide) (by decide)

-- ---------------------------------------------------------------------------
-- Schnorr verifiers (secp256k1.ts and commitment.ts)
-- ---------------------------------------------------------------------------

/-- Abstract SHA-256 digest of two serialized points followed by a context
string.  The compressed point serialization has fixed width, so the
concatenated byte string determines and is determined by the tuple; the
digest is therefore modelled as a function of the tuple. -/
def ShaFun : Type := Point → Point → String → ℕ

/-- schnorrChallenge of secp256k1.ts: digest of point, then R, then context,
reduced mod n. -/
def schnorrChallengeSign (sha : ShaFun) (P R : Point) (ctx : String) : ℕ :=
  sha P R ctx % nOrd

/-- schnorrVerify of secp256k1.ts (the signing-path verifier): reject s
outside [1, n), then accept iff s G = R + e P. -/
def schnorrVerifySign (sha : ShaFun) (P R : Point) (s : ℕ) (ctx : String) : Bool :=
  if s = 0 ∨ nOrd ≤ s then false
  else decide (scalarMulG s = pointAdd R (scalarMulPoint (schnorrChallengeSign sha P R ctx) P))

/-- schnorrChallenge of commitment.ts: digest of R, then point, then
context — the arguments reach the same hash in the opposite order. -/
def schnorrChallengeDkg (sha : ShaFun) (R P : Point) (ctx : String) : ℕ :=
  sha R P ctx % nOrd

/-- schnorrVerify of commitment.ts (the DKG-path verifier): no range check
on s; accept iff s G + e P = R. -/
def schnorrVerifyDkg (sha : ShaFun) (P R : Point) (s : ℕ) (ctx : String) : Bool :=
  decide (pointAdd (scalarMulG s) (scalarMulPoint (schnorrChallengeDkg sha R P ctx) P) = R)

-- ---------------------------------------------------------------------------
-- Association-list model of the per-round JS Maps
-- ---------------------------------------------------------------------------

/-- JS Map.set: overwrite the value when the key is present (keeping its
position), append otherwise. -/
def mapSet {α : Type} (l : List (String × α)) (k : String) (v : α) : List (String × α) :=
  if (l.lookup k).isSome then l.map (fun e => if e.1 = k then (k, v) else e)
  else l ++ [(k, v)]

-- ---------------------------------------------------------------------------
-- Signing round record functions (rounds/SignRound1.ts to SignRound4.ts)
-- ---------------------------------------------------------------------------

/-- SignRound1Payload (Message.ts), with points and scalars parsed. -/
structure SignRound1Payload where
  sessionId : String
  fromNodeId : String
  partyIndex : ℕ
  gammaCommitment : Point
  paillierN : ℕ
  kiEnc : ℕ
  kiCommitment : Point
  gammaProofR : Point
  gammaProofS : ℕ
  kiProofR : Point
  kiProofS : ℕ

/-- One recorded Round 1 entry of the signing session. -/
structure SignRound1Entry where
  gammaCommitment : Point
  paillierN : ℕ
  kiEnc : ℕ
  kiCommitment : Point
deriving DecidableEq

/-- The slice of SigningSessionState (SigningSession.ts) that the round
record functions read and write. -/
structure SignSession where
  sessionId : String
  txHash : ℕ
  round1Received : List (String × SignRound1Entry)
  peerPaillierN : List (String × ℕ)
  peerKiEnc : List (String × ℕ)
  peerKiCommitment : List (String × Point)
  round2Received : List (String × (ℕ × ℕ))
  round3Received : List (String × ℕ)
  round4Received : List (String × (ℕ × Point))
deriving DecidableEq

/-- recordRound1 of SignRound1.ts: duplicate check, Paillier modulus
validation, the two Schnorr proofs, then the map updates with the
ciphertext range check between them; any throw discards the updates. -/
def signRecordRound1 (sha : ShaFun) (st : SignSession) (p : SignRound1Payload) :
    Except ProtoError SignSession :=
  if (st.round1Received.lookup p.fromNodeId).isSome then
    .error ⟨.signing, "Equivocation detected in signing Round 1"⟩
  else
    match validatePaillierModulus p.paillierN with
    | .error e => .error e
    | .ok _ =>
      if ¬ schnorrVerifySign sha p.gammaCommitment p.gammaProofR p.gammaProofS
          ("GG20-GAMMA-" ++ p.sessionId) then
        .error ⟨.signing, "Invalid gamma proof"⟩
      else if ¬ schnorrVerifySign sha p.kiCommitment p.kiProofR p.kiProofS
          ("GG20-KI-" ++ p.sessionId) then
        .error ⟨.signing, "Invalid ki proof"⟩
      else if p.kiEnc < 1 ∨ p.paillierN * p.paillierN ≤ p.kiEnc then
        .error ⟨.signing, "ki ciphertext out of valid Paillier range"⟩
      else
        .ok { st with
          round1Received := mapSet st.round1Received p.fromNodeId
            ⟨p.gammaCommitment, p.paillierN, p.kiEnc, p.kiCommitment⟩
          peerPaillierN := mapSet st.peerPaillierN p.fromNodeId p.paillierN
          peerKiEnc := mapSet st.peerKiEnc p.fromNodeId p.kiEnc
          peerKiCommitment := mapSet st.peerKiCommitment p.fromNodeId p.kiCommitment }

/-- isSignRound1Complete of SignRound1.ts: all peer messages recorded and
the local Paillier generation finished (myKi set).  peerCount is
signers.length - 1 and myKiSet abstracts myKi not being undefined. -/
def isSignRound1Complete (peerCount : ℕ) (round1Count : ℕ) (myKiSet : Bool) : Bool :=
  round1Count == peerCount && myKiSet

/-- recordRound2 of SignRound2.ts: duplicate check, then record the two MtA
ciphertexts. -/
def signRecordRound2 (st : SignSession)
    (fromNodeId : String) (deltaEnc sigmaEnc : ℕ) : Except ProtoError SignSession :=
  if (st.round2Received.lookup fromNodeId).isSome then
    .error ⟨.signing, "Equivocation detected in signing Round 2"⟩
  else
    .ok { st with round2Received := mapSet st.round2Received fromNodeId (deltaEnc, sigmaEnc) }

/-- recordRound3 of SignRound3.ts: duplicate check, then record the delta
share. -/
def signRecordRound3 (st : SignSession)
    (fromNodeId : String) (deltaShare : ℕ) : Except ProtoError SignSession :=
  if (st.round3Received.lookup fromNodeId).isSome then
    .error ⟨.signing, "Equivocation detected in signing Round 3"⟩
  else
    .ok { st with round3Received := mapSet st.round3Received fromNodeId deltaShare }

/-- recordRound4 of SignRound4.ts: duplicate check, then the partial
signature verification s G = m (ki G) + r (sigma G) against the Round 1
commitment. -/
def signRecordRound4 (st : SignSession)
    (fromNodeId : String) (partialSig : ℕ) (sigmaCommitment : Point) (r : ℕ) :
    Except ProtoError SignSession :=
  if (st.round4Received.lookup fromNodeId).isSome then
    .error ⟨.signing, "Equivocation detected in signing Round 4"⟩
  else
    match st.peerKiCommitment.lookup fromNodeId with
    | none => .error ⟨.signing, "Missing ki commitment"⟩
    | some kiG =>
      if partialSig = 0 ∨ nOrd ≤ partialSig then
        .error ⟨.signing, "Partial signature out of range"⟩
      else if ¬ decide (scalarMulG partialSig
          = pointAdd (scalarMulPoint st.txHash kiG) (scalarMulPoint r sigmaCommitment)) then
        .error ⟨.signing, "Partial signature verification failed"⟩
      else
        .ok { st with
          round4Received := mapSet st.round4Received fromNodeId (partialSig, sigmaCommitment) }

-- ---------------------------------------------------------------------------
-- DKG round record functions (rounds/Round1.ts to Round4.ts)
-- ---------------------------------------------------------------------------

/-- A recorded DKG Round 2 entry (DkgState.ts). -/
structure DkgRound2Entry where
  coefficientCommitments : List Point
  zkR : Point
  zkS : ℕ
  blindingFactor : ℕ
deriving DecidableEq

/-- The slice of DkgLocalState (DkgState.ts) the record functions touch. -/
structure DkgState where
  ceremonyId : String
  myPartyIndex : ℕ
  round1Received : List (String × ℕ)
  round2Received : List (String × DkgRound2Entry)
  sharesReceived : List (String × ℕ)
  publicKeySharesReceived : List (String × Point)
deriving DecidableEq

/-- recordRound1 of dkg rounds/Round1.ts: no checks at all — the Pedersen
commitment is stored under the sender key unconditionally. -/
def dkgRecordRound1 (st : DkgState) (fromNodeId : String) (commitment : ℕ) : DkgState :=
  { st with round1Received := mapSet st.round1Received fromNodeId commitment }

/-- pedersenVerify of commitment.ts with the SHA-256 digest of the point
list and blinding factor abstracted as ped. -/
def pedersenVerify (ped : List Point → ℕ → ℕ) (commitment : ℕ)
    (coefficientPoints : List Point) (blindingFactor : ℕ) : Bool :=
  decide (ped coefficientPoints blindingFactor = commitment)

/-- recordRound2 of dkg rounds/Round2.ts: requires a Round 1 commitment
from the sender, verifies the Pedersen opening and the Schnorr proof (with
the DKG-path verifier), then records — overwriting any earlier Round 2
entry of the same sender (there is no duplicate check). -/
def dkgRecordRound2 (sha : ShaFun) (ped : List Point → ℕ → ℕ) (st : DkgState)
    (fromNodeId : String) (partyIndex : ℕ) (entry : DkgRound2Entry) :
    Except ProtoError DkgState :=
  match st.round1Received.lookup fromNodeId with
  | none => .error ⟨.dkg, "No Round 1 commitment found for sender"⟩
  | some c1 =>
    if ¬ pedersenVerify ped c1 entry.coefficientCommitments entry.blindingFactor then
      .error ⟨.dkg, "Round 2 commitment mismatch"⟩
    else if ¬ schnorrVerifyDkg sha (entry.coefficientCommitments.headD 0) entry.zkR entry.zkS
        ("DKG-" ++ st.ceremonyId ++ "-party-" ++ toString partyIndex) then
      .error ⟨.dkg, "Schnorr ZK proof invalid"⟩
    else
      .ok { st with round2Received := mapSet st.round2Received fromNodeId entry }

/-- recordRound3 of dkg rounds/Round3.ts: decrypt (the RSA-OAEP decryption
is abstracted as dec), look up the sender Round 2 commitments, verify the
share with verifyFeldmanShare, then record — again without a duplicate
check. -/
def dkgRecordRound3 (dec : String → ℕ) (st : DkgState)
    (fromNodeId : String) (encryptedShare : String) : Except ProtoError DkgState :=
  let shareValue := dec encryptedShare
  match st.round2Received.lookup fromNodeId with
  | none => .error ⟨.dkg, "No Round 2 data for sender"⟩
  | some senderData =>
    if ¬ verifyFeldmanShare shareValue st.myPartyIndex senderData.coefficientCommitments then
      .error ⟨.dkg, "Feldman VSS verification failed"⟩
    else
      .ok { st with sharesReceived := mapSet st.sharesReceived fromNodeId shareValue }

/-- recordRound4 of dkg rounds/Round4.ts: only the shareVerified flag is
checked; the public key share is stored under the sender key, overwriting
any earlier entry (no duplicate check). -/
def dkgRecordRound4 (st : DkgState) (fromNodeId : String)
    (publicKeyShare : Point) (shareVerified : Bool) : Except ProtoError DkgState :=
  if ¬ shareVerified then
    .error ⟨.dkg, "Sender reported share verification failure"⟩
  else
    .ok { st with
      publicKeySharesReceived := mapSet st.publicKeySharesReceived fromNodeId publicKeyShare }

-- ---------------------------------------------------------------------------
-- Claim C4: the two Schnorr verifiers
-- ---------------------------------------------------------------------------

/-- Claim C4 counterexample.  The claim asserts that both verifiers reject
s outside [1, n) and otherwise accept exactly when s G = R + e P with
e = SHA-256(P, R, ctx) mod n.  The DKG-path verifier (commitment.ts)
instead hashes (R, P, ctx) and accepts when s G + e P = R.  With the
constant digest 1, the point P = 2 G, R = 5 G, response s = 3 and empty
context, the DKG-path verifier accepts (3 + 1 times 2 = 5) although the
acceptance equation of the claim fails (3 is not 5 + 1 times 2 = 7), so the
claim is false at this input. -/
theorem claim_C4_counterexample :
    schnorrVerifyDkg (fun _ _ _ => 1) (scalarMulG 2) (scalarMulG 5) 3 "" = true ∧
    ¬ (scalarMulG 3
        = pointAdd (scalarMulG 5) (scalarMulPoint (1 % nOrd) (scalarMulG 2))) := by
  constructor
  · decide
  · decide

/-- Claim C4, amended.  The signing-path schnorrVerify (secp256k1.ts, used
by the signing Round 1 receive path) behaves exactly as the claim states:
it rejects s outside [1, n) and otherwise accepts precisely when
s G = R + e P with e the digest of (P, R, ctx) reduced mod n.  The DKG-path
schnorrVerify (commitment.ts, used by recordRound2 of the DKG) has no
range check on s, hashes (R, P, ctx) instead, and accepts precisely when
s G + e P = R. -/
theorem claim_C4_amended_schnorr_verifiers :
    (∀ (sha : ShaFun) (P R : Point) (s : ℕ) (ctx : String),
      schnorrVerifySign sha P R s ctx = true ↔
        (1 ≤ s ∧ s < nOrd ∧
          scalarMulG s = pointAdd R (scalarMulPoint (sha P R ctx % nOrd) P))) ∧
    (∀ (sha : ShaFun) (P R : Point) (s : ℕ) (ctx : String),
      schnorrVerifyDkg sha P R s ctx = true ↔
        pointAdd (scalarMulG s) (scalarMulPoint (sha R P ctx % nOrd) P) = R) := by
  constructor
  · intro sha P R s ctx
    simp only [schnorrVerifySign, schnorrChallengeSign]
    by_cases h : s = 0 ∨ nOrd ≤ s
    · rw [if_pos h]
      constructor
      · intro hh
        exact absurd hh (by simp)
      · rintro ⟨h1, h2, _⟩
        exfalso
        rcases h with h | h <;> omega
    · rw [if_neg h]
      push_neg at h
      rw [decide_eq_true_eq]
      constructor
      · intro he
        exact ⟨by omega, by omega, he⟩
      · rintro ⟨_, _, he⟩
        exact he
  · intro sha P R s ctx
    simp only [schnorrVerifyDkg, schnorrChallengeDkg, decide_eq_true_eq]

-- ---------------------------------------------------------------------------
-- Claim C6: Paillier modulus validation and its Round 1 call site
-- ---------------------------------------------------------------------------

/-- Boolean success test on Except results. -/
def exceptOk {α : Type} : Except ProtoError α → Bool
  | .ok _ => true
  | .error _ => false

/-- Claim C6.  validatePaillierModulus throws a SigningError exactly when
the modulus is even, below 2 to the 1022, shares a factor with the curve
order, or is a perfect square; and a signing Round 1 receive that records
a peer message can only succeed when the peer modulus passed this
validation. -/
theorem claim_C6_validate_modulus :
    (∀ N : ℕ,
      (exceptOk (validatePaillierModulus N) = false ↔
        (N % 2 = 0 ∨ N < 2 ^ 1022 ∨ Nat.gcd N nOrd ≠ 1 ∨ IsSquare N)) ∧
      (∀ e, validatePaillierModulus N = .error e → e.kind = .signing)) ∧
    (∀ (sha : ShaFun) (st : SignSession) (p : SignRound1Payload),
      exceptOk (signRecordRound1 sha st p) = true →
      validatePaillierModulus p.paillierN = .ok ()) := by
  constructor
  · intro N
    constructor
    · rw [← isqrt_sq_iff N]
      unfold validatePaillierModulus
      by_cases h1 : N % 2 = 0
      · simp [h1, exceptOk]
      · rw [if_neg h1]
        by_cases h2 : N < 2 ^ 1022
        · simp [h1, h2, exceptOk]
        · rw [if_neg h2]
          by_cases h3 : Nat.gcd N nOrd ≠ 1
          · simp [h1, h2, h3, exceptOk]
          · rw [if_neg h3]
            by_cases h4 : isqrt N * isqrt N = N
            · simp [h1, h2, h3, h4, exceptOk]
            · simp [h1, h2, h3, h4, exceptOk]
    · intro e he
      unfold validatePaillierModulus at he
      split_ifs at he
      all_goals (injection he with h; rw [← h])
  · intro sha st p h
    unfold signRecordRound1 at h
    by_cases hdup : (st.round1Received.lookup p.fromNodeId).isSome
    · rw [if_pos hdup] at h
      simp [exceptOk] at h
    · rw [if_neg hdup] at h
      rcases hval : validatePaillierModulus p.paillierN with e | u
      · rw [hval] at h
        simp [exceptOk] at h
      · cases u
        rfl

/-- Concrete session and payload for the claim C6 witness: an empty session
and a peer payload with modulus 2 to the 1022 plus 1 (odd, large enough,
coprime to the curve order, not a square), ciphertext 1, and Schnorr proofs
that verify under the constant-zero digest. -/
def c6session : SignSession :=
  { sessionId := "s", txHash := 0, round1Received := [], peerPaillierN := []
    peerKiEnc := [], peerKiCommitment := [], round2Received := []
    round3Received := [], round4Received := [] }

/-- Peer payload for the claim C6 witness. -/
def c6payload : SignRound1Payload :=
  { sessionId := "s", fromNodeId := "a", partyIndex := 2, gammaCommitment := 0
    paillierN := 2 ^ 1022 + 1, kiEnc := 1, kiCommitment := 0
    gammaProofR := scalarMulG 1, gammaProofS := 1
    kiProofR := scalarMulG 1, kiProofS := 1 }

set_option maxRecDepth 1000000 in
/-- Witness for claim C6: the concrete Round 1 receive succeeds, and the
theorem then yields that the received modulus passed validation. -/
theorem claim_C6_witness :
    exceptOk (signRecordRound1 (fun _ _ _ => 0) c6session c6payload) = true ∧
    validatePaillierModulus c6payload.paillierN = .ok () := by
  have h : exceptOk (signRecordRound1 (fun _ _ _ => 0) c6session c6payload) = true := by
    decide
  exact ⟨h, claim_C6_validate_modulus.2 (fun _ _ _ => 0) c6session c6payload h⟩

-- ---------------------------------------------------------------------------
-- Claim C7: duplicate messages
-- ---------------------------------------------------------------------------

/-- Claim C7 counterexample.  The claim asserts that in every round of both
ceremonies a message from a sender already recorded for that round makes
the record function raise an error, with no overwrite.  The DKG Round 1
record function has no duplicate check: recording a second commitment from
sender a succeeds and silently replaces the first one. -/
theorem claim_C7_counterexample :
    dkgRecordRound1
      { ceremonyId := "c", myPartyIndex := 1, round1Received := [("a", 1)]
        round2Received := [], sharesReceived := [], publicKeySharesReceived := [] }
      "a" 2
    = { ceremonyId := "c", myPartyIndex := 1, round1Received := [("a", 2)]
        round2Received := [], sharesReceived := [], publicKeySharesReceived := [] } := by
  decide

/-- Claim C7, amended.  The four signing-round record functions reject a
duplicate sender with a SigningError before touching the session state.
The four DKG record functions perform no duplicate check: Round 1 and
Round 4 record unconditionally (Round 4 only checks the shareVerified
flag), and Rounds 2 and 3 re-run their cryptographic checks and, when those
pass, record again — each time overwriting the sender entry. -/
theorem claim_C7_amended_duplicate_handling :
    (∀ (sha : ShaFun) (st : SignSession) (p : SignRound1Payload),
      (st.round1Received.lookup p.fromNodeId).isSome = true →
      signRecordRound1 sha st p
        = .error ⟨.signing, "Equivocation detected in signing Round 1"⟩) ∧
    (∀ (st : SignSession) (sender : String) (d s : ℕ),
      (st.round2Received.lookup sender).isSome = true →
      signRecordRound2 st sender d s
        = .error ⟨.signing, "Equivocation detected in signing Round 2"⟩) ∧
    (∀ (st : SignSession) (sender : String) (d : ℕ),
      (st.round3Received.lookup sender).isSome = true →
      signRecordRound3 st sender d
        = .error ⟨.signing, "Equivocation detected in signing Round 3"⟩) ∧
    (∀ (st : SignSession) (sender : String) (ps : ℕ) (sc : Point) (r : ℕ),
      (st.round4Received.lookup sender).isSome = true →
      signRecordRound4 st sender ps sc r
        = .error ⟨.signing, "Equivocation detected in signing Round 4"⟩) ∧
    (∀ (st : DkgState) (sender : String) (c : ℕ),
      dkgRecordRound1 st sender c
        = { st with round1Received := mapSet st.round1Received sender c }) ∧
    (∀ (sha : ShaFun) (ped : List Point → ℕ → ℕ) (st : DkgState) (sender : String)
        (pi : ℕ) (entry : DkgRound2Entry) (c1 : ℕ),
      st.round1Received.lookup sender = some c1 →
      pedersenVerify ped c1 entry.coefficientCommitments entry.blindingFactor = true →
      schnorrVerifyDkg sha (entry.coefficientCommitments.headD 0) entry.zkR entry.zkS
        ("DKG-" ++ st.ceremonyId ++ "-party-" ++ toString pi) = true →
      dkgRecordRound2 sha ped st sender pi entry
        = .ok { st with round2Received := mapSet st.round2Received sender entry }) ∧
    (∀ (dec : String → ℕ) (st : DkgState) (sender : String) (es : String)
        (sd : DkgRound2Entry),
      st.round2Received.lookup sender = some sd →
      verifyFeldmanShare (dec es) st.myPartyIndex sd.coefficientCommitments = true →
      dkgRecordRound3 dec st sender es
        = .ok { st with sharesReceived := mapSet st.sharesReceived sender (dec es) }) ∧
    (∀ (st : DkgState) (sender : String) (pk : Point),
      dkgRecordRound4 st sender pk true
        = .ok { st with
            publicKeySharesReceived := mapSet st.publicKeySharesReceived sender pk }) := by
  refine ⟨?_, ?_, ?_, ?_, ?_, ?_, ?_, ?_⟩
  · intro sha st p h
    unfold signRecordRound1
    rw [if_pos h]
  · intro st sender d s h
    unfold signRecordRound2
    rw [if_pos h]
  · intro st sender d h
    unfold signRecordRound3
    rw [if_pos h]
  · intro st sender ps sc r h
    unfold signRecordRound4
    rw [if_pos h]
  · intro st sender c
    rfl
  · intro sha ped st sender pi entry c1 h1 hped hzk
    simp only [dkgRecordRound2, h1]
    rw [hped, hzk]
    simp
  · intro dec st sender es sd h2 hfeld
    simp [dkgRecordRound3, h2, hfeld]
  · intro st sender pk
    simp [dkgRecordRound4]

/-- Witness for claim C7, instantiating every part at concrete data: a
duplicate from sender a in each signing round is refused, and the DKG
record functions accept and overwrite. -/
theorem claim_C7_witness :
    (signRecordRound1 (fun _ _ _ => 0)
        { sessionId := "s", txHash := 0, round1Received := [("a", ⟨0, 3, 1, 0⟩)]
          peerPaillierN := [], peerKiEnc := [], peerKiCommitment := []
          round2Received := [], round3Received := [], round4Received := [] }
        { sessionId := "s", fromNodeId := "a", partyIndex := 2, gammaCommitment := 0
          paillierN := 3, kiEnc := 1, kiCommitment := 0, gammaProofR := 0
          gammaProofS := 1, kiProofR := 0, kiProofS := 1 }
        = .error ⟨.signing, "Equivocation detected in signing Round 1"⟩) ∧
    (signRecordRound2
        { sessionId := "s", txHash := 0, round1Received := [], peerPaillierN := []
          peerKiEnc := [], peerKiCommitment := [], round2Received := [("a", (1, 2))]
          round3Received := [], round4Received := [] } "a" 5 6
        = .error ⟨.signing, "Equivocation detected in signing Round 2"⟩) ∧
    (signRecordRound3
        { sessionId := "s", txHash := 0, round1Received := [], peerPaillierN := []
          peerKiEnc := [], peerKiCommitment := [], round2Received := []
          round3Received := [("a", 1)], round4Received := [] } "a" 5
        = .error ⟨.signing, "Equivocation detected in signing Round 3"⟩) ∧
    (signRecordRound4
        { sessionId := "s", txHash := 0, round1Received := [], peerPaillierN := []
          peerKiEnc := [], peerKiCommitment := [], round2Received := []
          round3Received := [], round4Received := [("a", (1, 0))] } "a" 1 0 1
        = .error ⟨.signing, "Equivocation detected in signing Round 4"⟩) ∧
    (dkgRecordRound1
        { ceremonyId := "c", myPartyIndex := 1, round1Received := [("b", 7)]
          round2Received := [], sharesReceived := [], publicKeySharesReceived := [] } "b" 9
        = { ceremonyId := "c", myPartyIndex := 1
            round1Received := mapSet [("b", 7)] "b" 9, round2Received := []
            sharesReceived := [], publicKeySharesReceived := [] }) ∧
    (dkgRecordRound2 (fun _ _ _ => 0) (fun _ _ => 0)
        { ceremonyId := "c", myPartyIndex := 1, round1Received := [("b", 0)]
          round2Received := [("b", ⟨[], scalarMulG 1, 1, 0⟩)], sharesReceived := []
          publicKeySharesReceived := [] } "b" 2 ⟨[], scalarMulG 1, 1, 0⟩
        = .ok
          { ceremonyId := "c", myPartyIndex := 1, round1Received := [("b", 0)]
            round2Received := mapSet [("b", ⟨[], scalarMulG 1, 1, 0⟩)] "b" ⟨[], scalarMulG 1, 1, 0⟩
            sharesReceived := [], publicKeySharesReceived := [] }) ∧
    (dkgRecordRound3 (fun _ => 1)
        { ceremonyId := "c", myPartyIndex := 1, round1Received := []
          round2Received := [("b", ⟨[scalarMulG 1], 0, 0, 0⟩)]
          sharesReceived := [("b", 1)], publicKeySharesReceived := [] } "b" "x"
        = .ok
          { ceremonyId := "c", myPartyIndex := 1, round1Received := []
            round2Received := [("b", ⟨[scalarMulG 1], 0, 0, 0⟩)]
            sharesReceived := mapSet [("b", 1)] "b" 1
            publicKeySharesReceived := [] }) ∧
    (dkgRecordRound4
        { ceremonyId := "c", myPartyIndex := 1, round1Received := []
          round2Received := [], sharesReceived := []
          publicKeySharesReceived := [("b", 4)] } "b" 5 true
        = .ok
          { ceremonyId := "c", myPartyIndex := 1, round1Received := []
            round2Received := [], sharesReceived := []
            publicKeySharesReceived := mapSet [("b", 4)] "b" 5 }) := by
  refine ⟨?_, ?_, ?_, ?_, ?_, ?_, ?_, ?_⟩
  · exact claim_C7_amended_duplicate_handling.1 _ _ _ (by decide)
  · exact claim_C7_amended_duplicate_handling.2.1 _ _ _ _ (by decide)
  · exact claim_C7_amended_duplicate_handling.2.2.1 _ _ _ (by decide)
  · exact claim_C7_amended_duplicate_handling.2.2.2.1 _ _ _ _ _ (by decide)
  · exact claim_C7_amended_duplicate_handling.2.2.2.2.1 _ _ _
  · exact claim_C7_amended_duplicate_handling.2.2.2.2.2.1 _ _ _ _ _ _ 0
      (by decide) (by decide) (by decide)
  · exact claim_C7_amended_duplicate_handling.2.2.2.2.2.2.1 _ _ _ _ ⟨[scalarMulG 1], 0, 0, 0⟩
      (by decide) (by decide)
  · exact claim_C7_amended_duplicate_handling.2.2.2.2.2.2.2 _ _ _

-- ---------------------------------------------------------------------------
-- Claim C10: envelope timestamp validation (network/protocol validation)
-- ---------------------------------------------------------------------------

/-- validateTimestamp of the protocol validation module: compare the
absolute difference of receiver clock and envelope timestamp against the
tolerance (default 30000 ms at the call sites) and throw a ValidationError
beyond it.  Date.now() is passed in as now. -/
def validateTimestamp (now timestamp toleranceMs : ℤ) : Except ProtoError Unit :=
  if toleranceMs < |now - timestamp| then
    .error ⟨.validation, "Timestamp out of tolerance"⟩
  else
    .ok ()

/-- Claim C10.  With the default 30000 ms tolerance, validateTimestamp
throws exactly when the absolute clock difference exceeds 30000 ms — the
window is symmetric, so an envelope from the future is rejected exactly
like a stale one — and the thrown error is a ValidationError. -/
theorem claim_C10_timestamp_window :
    ∀ now timestamp : ℤ,
      (exceptOk (validateTimestamp now timestamp 30000) = false ↔
        30000 < |now - timestamp|) ∧
      (∀ e, validateTimestamp now timestamp 30000 = .error e → e.kind = .validation) := by
  intro now timestamp
  constructor
  · unfold validateTimestamp
    by_cases h : (30000 : ℤ) < |now - timestamp|
    · simp [h, exceptOk]
    · simp [h, exceptOk]
  · intro e he
    unfold validateTimestamp at he
    split_ifs at he
    injection he with h
    rw [← h]

-- ---------------------------------------------------------------------------
-- Claim C8: SigningCoordinator.onRequest and the tx-hash check
-- ---------------------------------------------------------------------------

/-- A raw transaction object; its serialization and hashing happen in the
external viem library, so the embedding keeps it opaque. -/
def RawTx : Type := String

/-- SignRequestPayload of Message.ts. -/
structure SignRequestPayload where
  sessionId : String
  initiatorNodeId : String
  initiatorPartyIndex : ℕ
  txHash : String
  rawTx : RawTx
  derivationPath : String
  deadline : ℤ

/-- The decrypted persistent key share loaded by keyShareStore.load(). -/
structure KeyShareData where
  partyIndex : ℕ
  secretShare : ℕ

/-- The created-session summary the claim needs (sessionId and txHash). -/
structure SessLite where
  sessionId : String
  txHash : String
deriving DecidableEq

/-- The coordinator fields onRequest reads or writes. -/
structure CoordState where
  session : Option SessLite
  sessionPending : Bool
  cachedSecretShare : Option ℕ
deriving DecidableEq

/-- A message sent by the coordinator. -/
inductive OutMsg
  | signAccept (toNodeId sessionId nodeId : String) (partyIndex : ℕ)
deriving DecidableEq

/-- onRequest of SigningCoordinator.ts.  computeHash abstracts
computeSigningHash (EIP-1559 serialization plus keccak256, both external
library calls; a throw is its error result), parseIdx abstracts
parseAddressIndex, tweakOf abstracts computeChildKeyTweak at the loaded
key share, keyShare is the loaded share and now is Date.now().  The guard
order mirrors the source: an existing or pending session, a passed
deadline, a hash computation failure and a hash mismatch all return with
no state change and no message; only afterwards is the session created and
SIGN_ACCEPT sent.  An error escaping the accept path propagates to
handleMessage (which aborts). -/
def onRequest (computeHash : RawTx → Except ProtoError String)
    (parseIdx : String → Except ProtoError ℕ) (tweakOf : ℕ → ℕ)
    (keyShare : KeyShareData) (now : ℤ) (myNodeId : String)
    (st : CoordState) (p : SignRequestPayload) :
    Except ProtoError (CoordState × List OutMsg) :=
  if st.session.isSome ∨ st.sessionPending then .ok (st, [])
  else if p.deadline ≤ now then .ok (st, [])
  else
    match computeHash p.rawTx with
    | .error _ => .ok (st, [])
    | .ok expectedHash =>
      if expectedHash ≠ p.txHash then .ok (st, [])
      else
        match parseIdx p.derivationPath with
        | .error e => .error e
        | .ok addrIndex =>
          .ok ({ session := some { sessionId := p.sessionId, txHash := p.txHash }
                 sessionPending := false
                 cachedSecretShare :=
                   some ((keyShare.secretShare + tweakOf addrIndex) % nOrd) },
               [OutMsg.signAccept p.initiatorNodeId p.sessionId myNodeId
                 keyShare.partyIndex])

/-- Claim C8.  Whenever the recomputed signing hash differs from the txHash
field of a SIGN_REQUEST, onRequest declines silently: the coordinator state
is returned unchanged and no message (in particular no SIGN_ACCEPT) is
sent. -/
theorem claim_C8_tx_hash_mismatch
    (computeHash : RawTx → Except ProtoError String)
    (parseIdx : String → Except ProtoError ℕ) (tweakOf : ℕ → ℕ)
    (keyShare : KeyShareData) (now : ℤ) (myNodeId : String)
    (st : CoordState) (p : SignRequestPayload) (h : String)
    (hhash : computeHash p.rawTx = .ok h) (hne : h ≠ p.txHash) :
    onRequest computeHash parseIdx tweakOf keyShare now myNodeId st p = .ok (st, []) := by
  unfold onRequest
  by_cases h1 : st.session.isSome ∨ st.sessionPending
  · rw [if_pos h1]
  · rw [if_neg h1]
    by_cases h2 : p.deadline ≤ now
    · rw [if_pos h2]
    · rw [if_neg h2]
      rw [hhash]
      simp only [ne_eq, hne, not_false_eq_true, if_true]

/-- Witness for claim C8: a concrete request whose txHash does not match
the recomputed hash is ignored. -/
theorem claim_C8_witness :
    onRequest (fun _ => .ok "aa") (fun _ => .ok 0) (fun _ => 0) ⟨1, 1⟩ 0 "me"
      ⟨none, false, none⟩ ⟨"sid", "init", 1, "bb", "tx", "m/0", 10⟩ = .ok (⟨none, false, none⟩, []) :=
  claim_C8_tx_hash_mismatch (fun _ => .ok "aa") (fun _ => .ok 0) (fun _ => 0) ⟨1, 1⟩ 0 "me"
    ⟨none, false, none⟩ ⟨"sid", "init", 1, "bb", "tx", "m/0", 10⟩ "aa" rfl (by decide)

-- ---------------------------------------------------------------------------
-- Claim C3: BIP32 child-key tweak (HdWallet.ts)
-- ---------------------------------------------------------------------------

/-- Big-endian 32-bit serialization (writeUInt32BE). -/
def be32 (index : ℕ) : List ℕ :=
  [index / 2 ^ 24 % 256, index / 2 ^ 16 % 256, index / 2 ^ 8 % 256, index % 256]

/-- Big-endian interpretation of a byte list (BigInt of the hex string). -/
def bytesToNat (bytes : List ℕ) : ℕ :=
  bytes.foldl (fun acc b => acc * 256 + b) 0

/-- Result of one non-hardened derivation step. -/
structure TweakStep where
  IL : ℕ
  childPubkey : Point
  childChainCode : List ℕ

/-- nonHardenedTweakStep of HdWallet.ts, with HMAC-SHA512 abstracted as hm
(key, then data) and the compressed point serialization abstracted as
serP: I = hm(parentChainCode, serP(parent) ++ be32(index)), IL the left 32
bytes as an integer, child pubkey IL G + parent, child chain code the
right 32 bytes. -/
def nonHardenedTweakStep (hm : List ℕ → List ℕ → List ℕ) (serP : Point → List ℕ)
    (parentPubkey : Point) (parentChainCode : List ℕ) (index : ℕ) : TweakStep :=
  let I := hm parentChainCode (serP parentPubkey ++ be32 index)
  let IL := bytesToNat (I.take 32)
  { IL := IL
    childPubkey := pointAdd (scalarMulG IL) parentPubkey
    childChainCode := I.drop 32 }

/-- computeChildKeyTweak of HdWallet.ts: two chained non-hardened steps
(index 0 then the address index), summed mod n. -/
def computeChildKeyTweak (hm : List ℕ → List ℕ → List ℕ) (serP : Point → List ℕ)
    (pkMaster : Point) (chainCode : List ℕ) (addressIndex : ℕ) : ℕ :=
  let step0 := nonHardenedTweakStep hm serP pkMaster chainCode 0
  let stepIdx := nonHardenedTweakStep hm serP step0.childPubkey step0.childChainCode addressIndex
  (step0.IL + stepIdx.IL) % nOrd

/-- Modelled from the spec: HDKey.deriveChild of the scure bip32 library
(used by deriveChildPublicKey in HdWallet.ts) is not part of this
repository.  Per BIP32 non-hardened public derivation as the specification
describes it, the child public key is parent + IL G and the child chain
code is IR, with IL parallel to nonHardenedTweakStep. -/
def hdDeriveChild (hm : List ℕ → List ℕ → List ℕ) (serP : Point → List ℕ)
    (pubkey : Point) (chainCode : List ℕ) (index : ℕ) : Point × List ℕ :=
  let I := hm chainCode (serP pubkey ++ be32 index)
  (pointAdd pubkey (scalarMulG (bytesToNat (I.take 32))), I.drop 32)

/-- deriveChildPublicKey of HdWallet.ts: deriveChild(0).deriveChild(index)
on the HDKey built from the master public key and chain code. -/
def deriveChildPublicKey (hm : List ℕ → List ℕ → List ℕ) (serP : Point → List ℕ)
    (pkMaster : Point) (chainCode : List ℕ) (index : ℕ) : Point :=
  let c0 := hdDeriveChild hm serP pkMaster chainCode 0
  (hdDeriveChild hm serP c0.1 c0.2 index).1

/-- Claim C3.  The session tweak of computeChildKeyTweak is the sum mod n
of the left 32 bytes of two HMAC-SHA512 runs — the first keyed by the
parent chain code over (parent pubkey, be32 0), the second keyed by the
chain code produced by the first step over (intermediate pubkey, be32 idx)
— and the child public key under which the signature must verify,
deriveChildPublicKey of buildHdKey(P, chainCode) at idx, equals
P + T G. -/
theorem claim_C3_child_key_tweak (hm : List ℕ → List ℕ → List ℕ)
    (serP : Point → List ℕ) (P : Point) (cc : List ℕ) (idx : ℕ) :
    computeChildKeyTweak hm serP P cc idx
      = (bytesToNat ((hm cc (serP P ++ be32 0)).take 32)
          + bytesToNat ((hm ((hm cc (serP P ++ be32 0)).drop 32)
              (serP (pointAdd (scalarMulG (bytesToNat ((hm cc (serP P ++ be32 0)).take 32))) P)
                ++ be32 idx)).take 32)) % nOrd ∧
    deriveChildPublicKey hm serP P cc idx
      = pointAdd P (scalarMulG (computeChildKeyTweak hm serP P cc idx)) := by
  constructor
  · rfl
  · show deriveChildPublicKey hm serP P cc idx
      = P + ((computeChildKeyTweak hm serP P cc idx : ℕ) : Point)
    unfold deriveChildPublicKey hdDeriveChild computeChildKeyTweak nonHardenedTweakStep
    simp only [pointAdd, scalarMulG]
    rw [show ((bytesToNat ((hm cc (serP P ++ be32 0)).take 32) : ℕ) : Point) + P
        = P + ((bytesToNat ((hm cc (serP P ++ be32 0)).take 32) : ℕ) : Point) from add_comm _ _]
    rw [ZMod.natCast_mod, Nat.cast_add]
    ring

/-- Witness is not required for claim C3 (no hypotheses), but the tweak
formula is exercised on concrete data: constant digest, trivial
serialization. -/
theorem claim_C3_concrete :
    computeChildKeyTweak (fun _ _ => List.replicate 64 1) (fun _ => []) 0 [] 5
      = (bytesToNat (List.replicate 32 1) + bytesToNat (List.replicate 32 1)) % nOrd := by
  decide

-- ---------------------------------------------------------------------------
-- Claim C9: signing Round 1 completion and the Round 2 advancement
-- ---------------------------------------------------------------------------

/-- The two statuses reachable while the Round 1 to Round 2 advancement is
in flight (SigningSession.ts: createSigningSession starts at round1;
startRound2 moves to round2). -/
inductive SignStatus
  | round1
  | round2
deriving DecidableEq

/-- The session fields involved in the advancement logic: the senders
recorded in round1Received, whether the local Paillier generation has
completed (myKi is set), the status, and how many times Round 2 was
initiated (executeSignRound2 runs). -/
structure R1State where
  received : List String
  myKiSet : Bool
  status : SignStatus
  round2Starts : ℕ
deriving DecidableEq

/-- The two kinds of events the advancement interleaves: arrival of a peer
Round 1 message (onRound1) and completion of the local Paillier key
generation (resumption inside startRound1). -/
inductive R1Event
  | peerMsg (sender : String)
  | keygenDone
deriving DecidableEq

/-- startRound2 of SigningCoordinator.ts: guarded by status = round1, set
synchronously to round2, then execute Round 2 (counted here). -/
def startRound2M (s : R1State) : R1State :=
  if s.status = SignStatus.round1 then
    { s with status := SignStatus.round2, round2Starts := s.round2Starts + 1 }
  else s

/-- r1Complete: isSignRound1Complete applied to the model state, with
peers the list of other signers. -/
def r1Complete (peers : List String) (s : R1State) : Bool :=
  isSignRound1Complete peers.length s.received.length s.myKiSet

/-- One event applied to the session, mirroring SigningCoordinator.ts:

* peerMsg: onRound1 calls recordRound1, which throws on a duplicate
  sender and otherwise records the message — also while the local keygen
  is still running — and then advances through startRound2 when
  isSignRound1Complete holds;
* keygenDone: the resumption in startRound1 merges the generated fields
  into the current session (late merge: recorded peer messages are kept),
  sets status round1 and myKi, and then advances when
  isSignRound1Complete holds. -/
def stepR1 (peers : List String) (s : R1State) : R1Event → Except ProtoError R1State
  | .peerMsg j =>
      if j ∈ s.received then
        .error ⟨.signing, "Equivocation detected in signing Round 1"⟩
      else
        let s' := { s with received := s.received ++ [j] }
        .ok (if r1Complete peers s' then startRound2M s' else s')
  | .keygenDone =>
      let s' := { s with myKiSet := true, status := SignStatus.round1 }
      .ok (if r1Complete peers s' then startRound2M s' else s')

/-- Serial application of the events (the coordinator event loop applies
handlers one at a time). -/
def runR1 (peers : List String) : R1State → List R1Event → Except ProtoError R1State
  | s, [] => .ok s
  | s, e :: es =>
      match stepR1 peers s e with
      | .error err => .error err
      | .ok s' => runR1 peers s' es

/-- Session state right after createSigningSession: nothing received,
keygen pending, status round1, Round 2 not started. -/
def initR1 : R1State :=
  { received := [], myKiSet := false, status := SignStatus.round1, round2Starts := 0 }

/-- The sender of an event, when it has one. -/
def evSender : R1Event → Option String
  | .peerMsg j => some j
  | .keygenDone => none

/-- Invariant tying a session state to the events still to be delivered. -/
def R1Inv (peers : List String) (rem : List R1Event) (s : R1State) : Prop :=
  s.received.Nodup ∧
  (s.received ++ rem.filterMap evSender).Perm peers ∧
  ((R1Event.keygenDone ∈ rem) ↔ s.myKiSet = false) ∧
  rem.count R1Event.keygenDone ≤ 1 ∧
  (s.status = SignStatus.round2 ↔ (s.myKiSet = true ∧ s.received.length = peers.length)) ∧
  s.round2Starts = (if s.status = SignStatus.round2 then 1 else 0)

theorem runR1_inv (peers : List String) (hnd : peers.Nodup) :
    ∀ rem : List R1Event, ∀ s : R1State, R1Inv peers rem s →
    ∃ final, runR1 peers s rem = .ok final ∧ R1Inv peers [] final := by
  intro rem
  induction rem with
  | nil =>
    intro s h
    exact ⟨s, rfl, h⟩
  | cons e rest ih =>
    intro s h
    obtain ⟨hnodup, hperm, hki, hcount, hstatus, hstarts⟩ := h
    cases e with
    | peerMsg j =>
      have hfm : (R1Event.peerMsg j :: rest).filterMap evSender
          = j :: rest.filterMap evSender := rfl
      rw [hfm] at hperm
      -- the sender is fresh: peers has no duplicates
      have hcnt0 : List.count j s.received = 0 := by
        have h2 := hperm.count_eq j
        rw [List.count_append] at h2
        have h3 : List.count j (j :: rest.filterMap evSender)
            = List.count j (rest.filterMap evSender) + 1 := List.count_cons_self j _
        have h4 : List.count j peers ≤ 1 := List.nodup_iff_count_le_one.mp hnd j
        omega
      have hnotmem : j ∉ s.received := by
        rw [← List.count_eq_zero]
        exact hcnt0
      -- the old status is round1: not all peer messages are in yet
      have hlen : s.received.length + ((rest.filterMap evSender).length + 1)
          = peers.length := by
        have := hperm.length_eq
        simp only [List.length_append, List.length_cons] at this
        omega
      have hstat1 : s.status = SignStatus.round1 := by
        cases hst : s.status with
        | round1 => rfl
        | round2 =>
          have := (hstatus.mp hst).2
          omega
      have hstarts0 : s.round2Starts = 0 := by
        rw [hstarts, if_neg (by rw [hstat1]; exact fun hf => SignStatus.noConfusion hf)]
      -- run the step
      set s' : R1State := { s with received := s.received ++ [j] } with hs'
      have hstep : stepR1 peers s (R1Event.peerMsg j)
          = .ok (if r1Complete peers s' then startRound2M s' else s') := by
        rw [stepR1, if_neg hnotmem]
      rw [runR1]
      simp only [hstep]
      have hrecnodup : (s.received ++ [j]).Nodup := by
        rw [List.nodup_append]
        exact ⟨hnodup, List.nodup_singleton j,
          fun a ha hb => by
            rw [List.mem_singleton] at hb
            subst hb
            exact hnotmem ha⟩
      have hpermnew : ((s.received ++ [j]) ++ rest.filterMap evSender).Perm peers := by
        rw [List.append_assoc]
        exact hperm
      have hkinew : (R1Event.keygenDone ∈ rest) ↔ s.myKiSet = false := by
        rw [← hki]
        constructor
        · intro hm
          exact List.mem_cons_of_mem _ hm
        · intro hm
          rcases List.mem_cons.mp hm with hh | hh
          · exact absurd hh (by intro hf; exact R1Event.noConfusion hf)
          · exact hh
      have hcountnew : rest.count R1Event.keygenDone ≤ 1 := by
        have := List.count_cons R1Event.keygenDone (R1Event.peerMsg j) rest
        omega
      by_cases hcomp : r1Complete peers s' = true
      · -- the last peer message: Round 2 fires now
        rw [if_pos hcomp]
        have hcomp2 : s.received.length + 1 = peers.length ∧ s.myKiSet = true := by
          have := hcomp
          simp only [r1Complete, isSignRound1Complete, Bool.and_eq_true, beq_iff_eq,
            hs', List.length_append, List.length_singleton] at this
          exact this
        have hrest0 : rest.filterMap evSender = [] := by
          have : (rest.filterMap evSender).length = 0 := by omega
          exact List.length_eq_zero.mp this
        refine ih (startRound2M s') ?_
        unfold startRound2M
        rw [if_pos (by exact hstat1)]
        refine ⟨hrecnodup, ?_, ?_, by simpa using hcountnew, ?_, ?_⟩
        · simpa [hrest0] using hpermnew
        · simpa using hkinew
        · constructor
          · intro _
            exact ⟨hcomp2.2, by simp [hs', hcomp2.1]⟩
          · intro _
            rfl
        · simp [hstarts0]
      · -- not complete yet: record only
        rw [if_neg hcomp]
        refine ih s' ?_
        refine ⟨hrecnodup, hpermnew, hkinew, hcountnew, ?_, ?_⟩
        · constructor
          · intro hst
            exfalso
            have h5 : s.status = SignStatus.round2 := hst
            rw [hstat1] at h5
            exact SignStatus.noConfusion h5
          · rintro ⟨hk, hl⟩
            exfalso
            apply hcomp
            simp only [r1Complete, isSignRound1Complete, Bool.and_eq_true, beq_iff_eq]
            exact ⟨by simpa [hs'] using hl, hk⟩
        · show s.round2Starts = _
          rw [hstarts0]
          rw [if_neg (by show ¬ s.status = SignStatus.round2
                         rw [hstat1]; exact fun hf => SignStatus.noConfusion hf)]
    | keygenDone =>
      have hfm : (R1Event.keygenDone :: rest).filterMap evSender
          = rest.filterMap evSender := rfl
      rw [hfm] at hperm
      have hkifalse : s.myKiSet = false := hki.mp (List.mem_cons_self _ _)
      have hnotinrest : R1Event.keygenDone ∉ rest := by
        have := List.count_cons_self R1Event.keygenDone rest
        have h2 : rest.count R1Event.keygenDone = 0 := by
          have h3 := hcount
          rw [List.count_cons_self] at h3
          omega
        rw [← List.count_eq_zero]
        exact h2
      have hstat1 : s.status = SignStatus.round1 := by
        cases hst : s.status with
        | round1 => rfl
        | round2 =>
          have := (hstatus.mp hst).1
          rw [hkifalse] at this
          exact Bool.noConfusion this
      have hstarts0 : s.round2Starts = 0 := by
        rw [hstarts, if_neg (by rw [hstat1]; exact fun hf => SignStatus.noConfusion hf)]
      set s' : R1State :=
        { s with myKiSet := true, status := SignStatus.round1 } with hs'
      have hstep : stepR1 peers s R1Event.keygenDone
          = .ok (if r1Complete peers s' then startRound2M s' else s') := by
        rw [stepR1]
      rw [runR1]
      simp only [hstep]
      have hkinew : (R1Event.keygenDone ∈ rest) ↔ (true : Bool) = false := by
        simp [hnotinrest]
      have hcountnew : rest.count R1Event.keygenDone ≤ 1 := by
        rw [← List.count_eq_zero] at hnotinrest
        omega
      by_cases hcomp : r1Complete peers s' = true
      · rw [if_pos hcomp]
        have hcomp2 : s.received.length = peers.length := by
          have := hcomp
          simp only [r1Complete, isSignRound1Complete, Bool.and_eq_true, beq_iff_eq, hs'] at this
          exact this.1
        refine ih (startRound2M s') ?_
        unfold startRound2M
        rw [if_pos (by rfl)]
        refine ⟨hnodup, hperm, by simpa using hkinew, hcountnew, ?_, ?_⟩
        · constructor
          · intro _
            exact ⟨rfl, hcomp2⟩
          · intro _
            rfl
        · simp [hstarts0]
      · rw [if_neg hcomp]
        refine ih s' ?_
        refine ⟨hnodup, hperm, by simpa using hkinew, hcountnew, ?_, ?_⟩
        · constructor
          · intro hst
            exact absurd hst (fun hf => SignStatus.noConfusion hf)
          · rintro ⟨_, hl⟩
            exfalso
            apply hcomp
            simp only [r1Complete, isSignRound1Complete, Bool.and_eq_true, beq_iff_eq, hs']
            exact ⟨hl, trivial⟩
        · show s.round2Starts = _
          rw [hstarts0, if_neg (fun hf => SignStatus.noConfusion hf)]

theorem filterMap_evSender_map (l : List String) :
    List.filterMap evSender (l.map R1Event.peerMsg) = l := by
  induction l with
  | nil => rfl
  | cons p ps ihp =>
    simp only [List.map_cons, List.filterMap_cons]
    show p :: List.filterMap evSender (ps.map R1Event.peerMsg) = p :: ps
    rw [ihp]

/-- Claim C9.  Signing Round 1 is complete exactly when all peer Round 1
messages are recorded and the local Paillier generation has finished; and
for every interleaving of the peer Round 1 arrivals with the local keygen
completion (each peer sending exactly once), the run succeeds, Round 1
ends complete, and Round 2 is initiated exactly once. -/
theorem claim_C9_round1_completion_and_round2_once :
    (∀ (peerCount round1Count : ℕ) (myKiSet : Bool),
      isSignRound1Complete peerCount round1Count myKiSet = true ↔
        (round1Count = peerCount ∧ myKiSet = true)) ∧
    (∀ (peers : List String) (events : List R1Event),
      peers.Nodup →
      events.Perm (R1Event.keygenDone :: peers.map R1Event.peerMsg) →
      ∃ final, runR1 peers initR1 events = .ok final ∧
        final.round2Starts = 1 ∧
        isSignRound1Complete peers.length final.received.length final.myKiSet = true) := by
  constructor
  · intro peerCount round1Count myKiSet
    simp [isSignRound1Complete, Bool.and_eq_true, beq_iff_eq]
  · intro peers events hnd hperm
    have hinv : R1Inv peers events initR1 := by
      refine ⟨List.nodup_nil, ?_, ?_, ?_, ?_, rfl⟩
      · have h1 : (List.filterMap evSender (R1Event.keygenDone :: peers.map R1Event.peerMsg))
            = peers := by
          rw [show List.filterMap evSender (R1Event.keygenDone :: peers.map R1Event.peerMsg)
              = List.filterMap evSender (peers.map R1Event.peerMsg) from rfl,
            filterMap_evSender_map]
        have h2 := (hperm.filterMap evSender)
        rw [h1] at h2
        simpa using h2
      · constructor
        · intro _
          rfl
        · intro _
          have : R1Event.keygenDone ∈
              (R1Event.keygenDone :: peers.map R1Event.peerMsg) :=
            List.mem_cons_self _ _
          exact (hperm.mem_iff).mpr this
      · have h2 := hperm.count_eq R1Event.keygenDone
        rw [List.count_cons_self] at h2
        have h3 : List.count R1Event.keygenDone (peers.map R1Event.peerMsg) = 0 := by
          rw [List.count_eq_zero]
          intro hmem
          obtain ⟨x, _, hx⟩ := List.mem_map.mp hmem
          exact R1Event.noConfusion hx
        omega
      · simp [initR1]
    obtain ⟨final, hrun, hfinal⟩ := runR1_inv peers hnd events initR1 hinv
    obtain ⟨_, hpermf, hkif, _, hstatusf, hstartsf⟩ := hfinal
    have hlenf : final.received.length = peers.length := by
      have := hpermf.length_eq
      simpa using this
    have hkitrue : final.myKiSet = true := by
      rcases hb : final.myKiSet with _ | _
      · exact absurd (hkif.mpr hb) (by simp)
      · rfl
    have hstat2 : final.status = SignStatus.round2 := hstatusf.mpr ⟨hkitrue, hlenf⟩
    refine ⟨final, hrun, ?_, ?_⟩
    · rw [hstartsf, if_pos hstat2]
    · simp [isSignRound1Complete, hlenf, hkitrue]

/-- Witness for claim C9: completion at three of three peers with keygen
done, and a concrete interleaving — the one peer message first, the local
keygen completion second — that succeeds and starts Round 2 exactly once. -/
theorem claim_C9_witness :
    (isSignRound1Complete 3 3 true = true ↔ (3 = 3 ∧ true = true)) ∧
    (∃ final, runR1 ["a"] initR1 [R1Event.peerMsg "a", R1Event.keygenDone] = .ok final ∧
      final.round2Starts = 1 ∧
      isSignRound1Complete (List.length ["a"]) final.received.length final.myKiSet = true) :=
  ⟨claim_C9_round1_completion_and_round2_once.1 3 3 true,
   claim_C9_round1_completion_and_round2_once.2 ["a"] [R1Event.peerMsg "a", R1Event.keygenDone]
     (by decide) (by decide)⟩

/-- Witness for claim C10: a message 40001 ms in the past is rejected, and
the error raised for it is a ValidationError. -/
theorem claim_C10_witness :
    exceptOk (validateTimestamp 40001 0 30000) = false ∧
    ∀ e, validateTimestamp 40001 0 30000 = .error e → e.kind = .validation :=
  ⟨((claim_C10_timestamp_window 40001 0).1).mpr (by decide),
   (claim_C10_timestamp_window 40001 0).2⟩

-- ---------------------------------------------------------------------------
-- Claim C5: the Feldman verification exponent bug
-- ---------------------------------------------------------------------------

/-- Claim C5.  Refuted on the source: verifyFeldmanShare reduces the running
scalar exponent modulo 2 ^ 256 - 1 instead of keeping the integer power of
the party index (which elliptic-curve multiplication would wrap modulo the
group order).  For the polynomial with coefficient list [1, 1, 1] (that is
f(X) = 1 + X + X ^ 2) and party index i = 2 ^ 128, the honest share is
f(i) mod n = (1 + 2 ^ 128 + 2 ^ 256) mod n, but the verifier computes the
second-degree exponent as i ^ 2 mod (2 ^ 256 - 1) = 1, so it compares
share * G against (2 + 2 ^ 128) * G and rejects the honest share.  The
program reaches this comparison: every scalar handed to the curve
multiplication on this path lies in [1, n) — the three commitments are
1 * G, the only multiplied loop exponent is 2 ^ 128 (the first and third
exponents equal 1, for which the source adds the commitment directly), and
the share is nonzero below n (the final conjunct). -/
theorem claim_C5_feldman_exponent_bug :
    evaluatePolynomial [1, 1, 1] (2 ^ 128) = (1 + 2 ^ 128 + 2 ^ 256) % nOrd ∧
    verifyFeldmanShare ((1 + 2 ^ 128 + 2 ^ 256) % nOrd) (2 ^ 128)
      (feldmanCommitments [1, 1, 1]) = false ∧
    0 < (1 + 2 ^ 128 + 2 ^ 256) % nOrd := by
  refine ⟨by decide, by decide, by decide⟩

-- ---------------------------------------------------------------------------
-- Claim C1: threshold reconstruction of the DKG master key in the exponent
-- ---------------------------------------------------------------------------

/-- The polynomial over the exponent field denoted by a shamir.ts coefficient
list (constant term first). -/
noncomputable def listToPoly : List ℕ → Polynomial Point
  | [] => 0
  | c :: rest => Polynomial.C ((c : ℕ) : Point) + Polynomial.X * listToPoly rest

theorem evalPolyAux_cast (x : ℕ) :
    ∀ (f : List ℕ) (result xPow : ℕ),
      ((evalPolyAux x f result xPow : ℕ) : Point)
        = (result : Point) + (xPow : Point) * (listToPoly f).eval (x : Point) := by
  intro f
  induction f with
  | nil =>
      intro result xPow
      simp [evalPolyAux, listToPoly]
  | cons c rest ih =>
      intro result xPow
      rw [show evalPolyAux x (c :: rest) result xPow
          = evalPolyAux x rest ((result + c * xPow) % nOrd) (xPow * x % nOrd) from rfl]
      rw [ih, ZMod.natCast_mod, ZMod.natCast_mod]
      push_cast
      simp only [listToPoly, Polynomial.eval_add, Polynomial.eval_mul, Polynomial.eval_C,
        Polynomial.eval_X]
      ring

theorem evaluatePolynomial_cast (f : List ℕ) (x : ℕ) :
    ((evaluatePolynomial f x : ℕ) : Point) = (listToPoly f).eval (x : Point) := by
  rw [evaluatePolynomial, ZMod.natCast_mod]
  push_cast [ZMod.natCast_mod, ZMod.natCast_self]
  rw [evalPolyAux_cast]
  push_cast
  ring

theorem listToPoly_natDegree (f : List ℕ) : (listToPoly f).natDegree ≤ f.length - 1 := by
  induction f with
  | nil => simp [listToPoly]
  | cons c rest ih =>
      cases rest with
      | nil => simp [listToPoly]
      | cons d rest2 =>
          rw [show listToPoly (c :: d :: rest2)
              = Polynomial.C ((c : ℕ) : Point) + Polynomial.X * listToPoly (d :: rest2) from rfl]
          refine le_trans (Polynomial.natDegree_add_le _ _) (max_le ?_ ?_)
          · simp
          · have h3 := @Polynomial.natDegree_mul_le Point _ Polynomial.X (listToPoly (d :: rest2))
            have h4 := @Polynomial.natDegree_X_le Point _
            have h5 := ih
            simp only [List.length] at h5 ⊢
            omega

theorem listToPoly_eval_zero (f : List ℕ) :
    (listToPoly f).eval 0 = ((f.headD 0 : ℕ) : Point) := by
  cases f with
  | nil => simp [listToPoly]
  | cons c rest => simp [listToPoly]

theorem natDegree_list_sum_lt (t : ℕ) (ht : 0 < t) :
    ∀ L : List (Polynomial Point), (∀ p ∈ L, p.natDegree < t) → L.sum.natDegree < t := by
  intro L
  induction L with
  | nil =>
      intro _
      simpa using ht
  | cons p rest ih =>
      intro h
      rw [List.sum_cons]
      refine lt_of_le_of_lt (Polynomial.natDegree_add_le _ _) ?_
      exact max_lt (h p (List.mem_cons_self _ _)) (ih fun q hq => h q (List.mem_cons_of_mem _ hq))

theorem isUnit_finset_prod {ι : Type} [DecidableEq ι] (g : ι → Point) :
    ∀ u : Finset ι, (∀ a ∈ u, IsUnit (g a)) → IsUnit (∏ a ∈ u, g a) := by
  intro u
  induction u using Finset.induction_on with
  | empty =>
      intro _
      simp
  | insert hni ih =>
      intro h
      rw [Finset.prod_insert hni]
      exact (h _ (Finset.mem_insert_self _ _)).mul
        (ih fun a ha => h a (Finset.mem_insert_of_mem ha))

theorem poly_zero_of_unit_roots {ι : Type} [DecidableEq ι] :
    ∀ (n : ℕ) (s : Finset ι) (v : ι → Point) (p : Polynomial Point),
      s.card = n →
      (∀ i ∈ s, ∀ j ∈ s, i ≠ j → IsUnit (v i - v j)) →
      p.natDegree < n →
      (∀ i ∈ s, p.eval (v i) = 0) →
      p = 0 := by
  intro n
  induction n with
  | zero =>
      intro s v p hcard hu hdeg hroots
      exact absurd hdeg (Nat.not_lt_zero _)
  | succ m ih =>
      intro s v p hcard hu hdeg hroots
      have hne : s.Nonempty := by
        rw [← Finset.card_pos, hcard]
        exact Nat.succ_pos m
      obtain ⟨x, hx⟩ := hne
      obtain ⟨q, hq⟩ := Polynomial.dvd_iff_isRoot.mpr (hroots x hx)
      by_cases hq0 : q = 0
      · rw [hq, hq0, mul_zero]
      · have hmon : (Polynomial.X - Polynomial.C (v x)).Monic := Polynomial.monic_X_sub_C _
        have hlc : (Polynomial.X - Polynomial.C (v x)).leadingCoeff * q.leadingCoeff ≠ 0 := by
          rw [hmon.leadingCoeff, one_mul]
          exact Polynomial.leadingCoeff_ne_zero.mpr hq0
        have h1 : p.natDegree = 1 + q.natDegree := by
          rw [hq, Polynomial.natDegree_mul' hlc, Polynomial.natDegree_X_sub_C]
        have hdegq : q.natDegree < m := by omega
        have hq' : q = 0 := by
          refine ih (s.erase x) v q ?_ ?_ hdegq ?_
          · rw [Finset.card_erase_of_mem hx, hcard]
            omega
          · intro i hi j hj hij
            exact hu i (Finset.mem_of_mem_erase hi) j (Finset.mem_of_mem_erase hj) hij
          · intro i hi
            have hiS : i ∈ s := Finset.mem_of_mem_erase hi
            have hix : i ≠ x := (Finset.mem_erase.mp hi).1
            have h0 : p.eval (v i) = 0 := hroots i hiS
            rw [hq, Polynomial.eval_mul] at h0
            have heq : Polynomial.eval (v i) (Polynomial.X - Polynomial.C (v x)) = v i - v x := by
              simp
            rw [heq] at h0
            exact ((hu i hiS x hx hix).mul_right_eq_zero).mp h0
        exact absurd hq' hq0

theorem lagrange_eval_zero {ι : Type} [DecidableEq ι]
    (s : Finset ι) (v : ι → Point) (c : ι → Point)
    (hu : ∀ i ∈ s, ∀ j ∈ s, i ≠ j → IsUnit (v i - v j))
    (hc : ∀ i ∈ s, c i * (∏ j ∈ s.erase i, (v i - v j)) = ∏ j ∈ s.erase i, (0 - v j))
    (p : Polynomial Point) (hdeg : p.natDegree < s.card) :
    (∑ i ∈ s, c i * p.eval (v i)) = p.eval 0 := by
  have hdu : ∀ i ∈ s, IsUnit (∏ j ∈ s.erase i, (v i - v j)) := by
    intro i hi
    refine isUnit_finset_prod (fun j => v i - v j) (s.erase i) ?_
    intro j hj
    exact hu i hi j (Finset.mem_of_mem_erase hj) (Ne.symm (Finset.mem_erase.mp hj).1)
  have hQdeg : (∑ i ∈ s,
      Polynomial.C (p.eval (v i) * Ring.inverse (∏ j ∈ s.erase i, (v i - v j))) *
        ∏ j ∈ s.erase i, (Polynomial.X - Polynomial.C (v j))).natDegree < s.card := by
    have hcard0 : 0 < s.card := lt_of_le_of_lt (Nat.zero_le _) hdeg
    have h1 : ∀ i ∈ s,
        (Polynomial.C (p.eval (v i) * Ring.inverse (∏ j ∈ s.erase i, (v i - v j))) *
          ∏ j ∈ s.erase i, (Polynomial.X - Polynomial.C (v j))).natDegree ≤ s.card - 1 := by
      intro i hi
      refine le_trans Polynomial.natDegree_mul_le ?_
      rw [Polynomial.natDegree_C, zero_add]
      refine le_trans (Polynomial.natDegree_prod_le _ _) ?_
      rw [Finset.sum_congr rfl (fun j _ => Polynomial.natDegree_X_sub_C (v j)),
        Finset.sum_const, smul_eq_mul, mul_one, Finset.card_erase_of_mem hi]
    have h2 := Polynomial.natDegree_sum_le_of_forall_le s _ h1
    omega
  have hQeval : ∀ k ∈ s,
      Polynomial.eval (v k) (∑ i ∈ s,
        Polynomial.C (p.eval (v i) * Ring.inverse (∏ j ∈ s.erase i, (v i - v j))) *
          ∏ j ∈ s.erase i, (Polynomial.X - Polynomial.C (v j)))
        = p.eval (v k) := by
    intro k hk
    rw [Polynomial.eval_finset_sum]
    have h0 : ∀ b ∈ s, b ≠ k →
        Polynomial.eval (v k)
          (Polynomial.C (p.eval (v b) * Ring.inverse (∏ j ∈ s.erase b, (v b - v j))) *
            ∏ j ∈ s.erase b, (Polynomial.X - Polynomial.C (v j))) = 0 := by
      intro b hb hbk
      simp only [Polynomial.eval_mul, Polynomial.eval_C, Polynomial.eval_prod,
        Polynomial.eval_sub, Polynomial.eval_X]
      have hz : (∏ j ∈ s.erase b, (v k - v j)) = 0 :=
        Finset.prod_eq_zero (Finset.mem_erase.mpr ⟨Ne.symm hbk, hk⟩) (sub_self (v k))
      rw [hz, mul_zero]
    rw [Finset.sum_eq_single_of_mem k hk h0]
    simp only [Polynomial.eval_mul, Polynomial.eval_C, Polynomial.eval_prod,
      Polynomial.eval_sub, Polynomial.eval_X]
    rw [mul_assoc, Ring.inverse_mul_cancel _ (hdu k hk), mul_one]
  have hQp : (∑ i ∈ s,
      Polynomial.C (p.eval (v i) * Ring.inverse (∏ j ∈ s.erase i, (v i - v j))) *
        ∏ j ∈ s.erase i, (Polynomial.X - Polynomial.C (v j))) = p := by
    have hzero := poly_zero_of_unit_roots s.card s v
      ((∑ i ∈ s,
        Polynomial.C (p.eval (v i) * Ring.inverse (∏ j ∈ s.erase i, (v i - v j))) *
          ∏ j ∈ s.erase i, (Polynomial.X - Polynomial.C (v j))) - p)
      rfl hu ?_ ?_
    · exact sub_eq_zero.mp hzero
    · refine lt_of_le_of_lt (Polynomial.natDegree_sub_le _ _) ?_
      exact max_lt hQdeg hdeg
    · intro i hi
      rw [Polynomial.eval_sub, hQeval i hi, sub_self]
  conv_rhs => rw [← hQp]
  rw [Polynomial.eval_finset_sum]
  refine Finset.sum_congr rfl ?_
  intro i hi
  simp only [Polynomial.eval_mul, Polynomial.eval_C, Polynomial.eval_prod,
    Polynomial.eval_sub, Polynomial.eval_X]
  have hci : c i = (∏ j ∈ s.erase i, (0 - v j)) *
      Ring.inverse (∏ j ∈ s.erase i, (v i - v j)) := by
    calc c i = c i * ((∏ j ∈ s.erase i, (v i - v j)) *
            Ring.inverse (∏ j ∈ s.erase i, (v i - v j))) := by
          rw [Ring.mul_inverse_cancel _ (hdu i hi), mul_one]
      _ = (c i * (∏ j ∈ s.erase i, (v i - v j))) *
            Ring.inverse (∏ j ∈ s.erase i, (v i - v j)) := by ring
      _ = (∏ j ∈ s.erase i, (0 - v j)) *
            Ring.inverse (∏ j ∈ s.erase i, (v i - v j)) := by rw [hc i hi]
  rw [hci]
  ring

-- cast bridges -------------------------------------------------------------

theorem intCast_nOrd_zero : (((nOrd : ℕ) : ℤ) : Point) = 0 := by
  push_cast
  exact ZMod.natCast_self nOrd

theorem tmod_neg_left (a b : ℤ) : (-a).tmod b = -(a.tmod b) := by
  simp [Int.tmod_def]
  ring

theorem tmod_lower (a b : ℤ) (hb : 0 < b) : -b < a.tmod b := by
  rcases le_or_lt 0 a with h | h
  · exact lt_of_lt_of_le (by linarith) (Int.tmod_nonneg b h)
  · have h1 : a.tmod b = -((-a).tmod b) := by rw [tmod_neg_left]; ring
    have h2 : (-a).tmod b < b := Int.tmod_lt_of_pos (-a) hb
    omega

theorem intCast_tmod_nOrd (a : ℤ) : ((a.tmod (nOrd : ℤ) : ℤ) : Point) = ((a : ℤ) : Point) := by
  have h := Int.tdiv_add_tmod a (nOrd : ℤ)
  have h2 : ((((nOrd : ℤ)) * a.tdiv (nOrd : ℤ) + a.tmod (nOrd : ℤ) : ℤ) : Point)
      = ((a : ℤ) : Point) := by rw [h]
  rw [Int.cast_add, Int.cast_mul, intCast_nOrd_zero, zero_mul, zero_add] at h2
  exact h2

theorem nOrd_pos : (0 : ℤ) < (nOrd : ℤ) := by
  have h : 1 < nOrd := Fact.out
  exact_mod_cast Nat.lt_of_lt_of_le Nat.zero_lt_one (le_of_lt h)

theorem lagrangeAux_cast (i : ℕ) :
    ∀ (l : List ℕ) (num : ℕ) (den : ℤ),
      (((lagrangeAux i l num den).1 : ℕ) : Point)
          = (num : Point) * ((l.filter (fun j => decide (j ≠ i))).map
              (fun j => ((j : ℕ) : Point))).prod ∧
      (((lagrangeAux i l num den).2 : ℤ) : Point)
          = ((den : ℤ) : Point) * ((l.filter (fun j => decide (j ≠ i))).map
              (fun j => ((j : ℕ) : Point) - ((i : ℕ) : Point))).prod := by
  intro l
  induction l with
  | nil =>
      intro num den
      constructor <;> simp [lagrangeAux]
  | cons j rest ih =>
      intro num den
      by_cases hj : j = i
      · rw [show lagrangeAux i (j :: rest) num den = lagrangeAux i rest num den from by
          rw [lagrangeAux, if_pos hj]]
        have hfil : (j :: rest).filter (fun j => decide (j ≠ i))
            = rest.filter (fun j => decide (j ≠ i)) := by
          simp [List.filter_cons, hj]
        rw [hfil]
        exact ih num den
      · rw [show lagrangeAux i (j :: rest) num den
            = lagrangeAux i rest (num * j % nOrd)
                (Int.tmod (den * ((j : ℤ) - (i : ℤ))) nOrd) from by
          rw [lagrangeAux, if_neg hj]]
        have hfil : (j :: rest).filter (fun j => decide (j ≠ i))
            = j :: rest.filter (fun j => decide (j ≠ i)) := by
          simp [List.filter_cons, hj]
        rw [hfil]
        obtain ⟨ih1, ih2⟩ := ih (num * j % nOrd) (Int.tmod (den * ((j : ℤ) - (i : ℤ))) nOrd)
        constructor
        · rw [ih1, ZMod.natCast_mod]
          push_cast
          simp only [List.map_cons, List.prod_cons]
          ring
        · rw [ih2, intCast_tmod_nOrd]
          push_cast
          simp only [List.map_cons, List.prod_cons]
          ring

theorem lagrangeCoefficient_cast (i : ℕ) (S : List ℕ)
    (hu : IsUnit (((S.filter (fun j => decide (j ≠ i))).map
        (fun j => ((j : ℕ) : Point) - ((i : ℕ) : Point))).prod)) :
    ((lagrangeCoefficient i S : ℕ) : Point) *
        ((S.filter (fun j => decide (j ≠ i))).map
          (fun j => ((j : ℕ) : Point) - ((i : ℕ) : Point))).prod
      = ((S.filter (fun j => decide (j ≠ i))).map (fun j => ((j : ℕ) : Point))).prod := by
  obtain ⟨h1, h2⟩ := lagrangeAux_cast i S 1 1
  rw [Nat.cast_one, one_mul] at h1
  rw [Int.cast_one, one_mul] at h2
  have hnn : 0 ≤ Int.tmod (Int.tmod (lagrangeAux i S 1 1).2 (nOrd : ℤ) + (nOrd : ℤ)) (nOrd : ℤ) := by
    refine Int.tmod_nonneg _ ?_
    have hlow := tmod_lower (lagrangeAux i S 1 1).2 (nOrd : ℤ) nOrd_pos
    omega
  have hcast : (((Int.tmod (Int.tmod (lagrangeAux i S 1 1).2 (nOrd : ℤ) + (nOrd : ℤ))
        (nOrd : ℤ)).toNat : ℕ) : Point)
      = (((lagrangeAux i S 1 1).2 : ℤ) : Point) := by
    rw [← Int.cast_natCast, Int.toNat_of_nonneg hnn, intCast_tmod_nOrd, Int.cast_add,
      intCast_nOrd_zero, add_zero, intCast_tmod_nOrd]
  have hcop : Nat.Coprime (Int.tmod (Int.tmod (lagrangeAux i S 1 1).2 (nOrd : ℤ) + (nOrd : ℤ))
      (nOrd : ℤ)).toNat nOrd := by
    refine (ZMod.isUnit_iff_coprime _ nOrd).mp ?_
    rw [hcast, h2]
    exact hu
  have hinv := modInv_spec (Fact.out : 1 < nOrd) hcop
  have hone : ((modInv (Int.tmod (Int.tmod (lagrangeAux i S 1 1).2 (nOrd : ℤ) + (nOrd : ℤ))
        (nOrd : ℤ)).toNat nOrd : ℕ) : Point) *
      ((S.filter (fun j => decide (j ≠ i))).map
        (fun j => ((j : ℕ) : Point) - ((i : ℕ) : Point))).prod = 1 := by
    have h3 : ((modInv (Int.tmod (Int.tmod (lagrangeAux i S 1 1).2 (nOrd : ℤ) + (nOrd : ℤ))
          (nOrd : ℤ)).toNat nOrd *
        (Int.tmod (Int.tmod (lagrangeAux i S 1 1).2 (nOrd : ℤ) + (nOrd : ℤ))
          (nOrd : ℤ)).toNat % nOrd : ℕ) : Point) = ((1 : ℕ) : Point) := by
      rw [hinv]
    rw [ZMod.natCast_mod, Nat.cast_mul, hcast, h2, Nat.cast_one] at h3
    exact h3
  rw [show lagrangeCoefficient i S
      = (lagrangeAux i S 1 1).1 * modInv (Int.tmod (Int.tmod (lagrangeAux i S 1 1).2
          (nOrd : ℤ) + (nOrd : ℤ)) (nOrd : ℤ)).toNat nOrd % nOrd from rfl]
  rw [ZMod.natCast_mod, Nat.cast_mul, h1, mul_assoc, hone, mul_one]

theorem erase_prod_eq_filter (S : List ℕ) (hnd : S.Nodup) (i : ℕ) (g : ℕ → Point) :
    (∏ j ∈ S.toFinset.erase i, g j)
      = ((S.filter (fun j => decide (j ≠ i))).map g).prod := by
  rw [← List.prod_toFinset g (List.Nodup.filter _ hnd)]
  congr 1
  ext a
  simp [Finset.mem_erase, List.mem_toFinset, List.mem_filter, and_comm]

theorem finset_prod_neg {ι : Type} (u : Finset ι) (g : ι → Point) :
    (∏ a ∈ u, (-(g a))) = (-1) ^ u.card * ∏ a ∈ u, g a := by
  rw [← Finset.prod_const, ← Finset.prod_mul_distrib]
  exact Finset.prod_congr rfl (fun x _ => (neg_one_mul (g x)).symm)

theorem get_cons_eraseIdx_perm {α : Type} :
    ∀ (l : List α) (k : ℕ) (h : k < l.length), (l.get ⟨k, h⟩ :: l.eraseIdx k).Perm l := by
  intro l
  induction l with
  | nil =>
      intro k h
      exact absurd h (by simp)
  | cons a rest ih =>
      intro k h
      cases k with
      | zero => exact List.Perm.refl _
      | succ k2 =>
          have h2 : k2 < rest.length := by simpa using h
          exact (List.Perm.swap a (rest.get ⟨k2, h2⟩) (rest.eraseIdx k2)).trans
            ((ih k2 h2).cons a)

theorem foldl_mod_cast :
    ∀ (L : List ℕ) (init : ℕ),
      ((L.foldl (fun acc s => (acc + s) % nOrd) init : ℕ) : Point)
        = (init : Point) + (L.map (fun s => ((s : ℕ) : Point))).sum := by
  intro L
  induction L with
  | nil =>
      intro init
      simp
  | cons a rest ih =>
      intro init
      rw [List.foldl_cons, ih, ZMod.natCast_mod]
      push_cast
      simp only [List.map_cons, List.sum_cons]
      ring

theorem foldl_pointAdd_sum :
    ∀ (l : List Point) (a : Point), l.foldl pointAdd a = a + l.sum := by
  intro l
  induction l with
  | nil =>
      intro a
      simp
  | cons b rest ih =>
      intro a
      rw [List.foldl_cons, ih, List.sum_cons, pointAdd]
      ring

theorem combinePkMaster_sum (L : List Point) (hL : L ≠ []) :
    combinePkMaster L = some L.sum := by
  cases L with
  | nil => exact absurd rfl hL
  | cons h t =>
      rw [show combinePkMaster (h :: t) = some (t.foldl pointAdd h) from rfl,
        foldl_pointAdd_sum, List.sum_cons]

theorem executeRound4KeyShare_cast (fs : List (List ℕ)) (i : ℕ)
    (h2 : i - 1 < fs.length) :
    ((executeRound4KeyShare fs i : ℕ) : Point)
      = ((fs.map (fun f => (listToPoly f).eval ((i : ℕ) : Point)))).sum := by
  rw [show executeRound4KeyShare fs i
      = ((((fs.eraseIdx (i - 1)).map (fun f => evaluatePolynomial f i)).foldl
          (fun acc s => (acc + s) % nOrd)
          (evaluatePolynomial (fs.getD (i - 1) []) i)) % nOrd + nOrd) % nOrd from rfl]
  rw [ZMod.natCast_mod, Nat.cast_add, ZMod.natCast_mod, ZMod.natCast_self, add_zero]
  rw [foldl_mod_cast, evaluatePolynomial_cast]
  have hmap : (((fs.eraseIdx (i - 1)).map (fun f => evaluatePolynomial f i)).map
        (fun s => ((s : ℕ) : Point)))
      = (fs.eraseIdx (i - 1)).map (fun f => (listToPoly f).eval ((i : ℕ) : Point)) := by
    rw [List.map_map]
    refine List.map_congr_left ?_
    intro f _
    exact evaluatePolynomial_cast f i
  rw [hmap]
  have hget : fs.getD (i - 1) [] = fs.get ⟨i - 1, h2⟩ := by
    rw [List.getD_eq_getElem fs [] h2]
    simp
  rw [hget]
  have hperm := (get_cons_eraseIdx_perm fs (i - 1) h2).map
    (fun f => (listToPoly f).eval ((i : ℕ) : Point))
  have hsum := hperm.sum_eq
  rw [List.map_cons, List.sum_cons] at hsum
  exact hsum

-- main theorem ---------------------------------------------------------------

/-- Claim C1.  For a completed DKG ceremony with threshold t in which party
i (1-based) sampled the degree t - 1 coefficient list at position i - 1 of
fs, the key shares x_i assembled by executeRound4 and the master public key
P assembled from the Round 2 intercept commitments by combinePkMaster
satisfy, for every t-subset S of the party indices,
(sum over i in S of lagrangeCoefficient(i, S) * x_i) * G = P.  The subset
is a Nodup list of party indices; the coprimality hypothesis on index
differences holds for every pair of distinct real party indices because the
group order is prime (primality is consumed here as the arithmetic fact
that the small differences of party indices are coprime to it). -/
theorem claim_C1_threshold_reconstruction
    (fs : List (List ℕ)) (t : ℕ) (S : List ℕ)
    (ht : 1 ≤ t)
    (hfs : fs ≠ [])
    (hflen : ∀ f ∈ fs, f.length = t)
    (hSnd : S.Nodup)
    (hScard : S.length = t)
    (hSmem : ∀ i ∈ S, 1 ≤ i ∧ i ≤ fs.length)
    (hdiff : ∀ i ∈ S, ∀ j ∈ S, j < i → Nat.Coprime (i - j) nOrd) :
    dkgMasterPk fs
      = some (scalarMulG
          ((S.map (fun i => lagrangeCoefficient i S * executeRound4KeyShare fs i)).sum)) := by
  have hunit : ∀ i ∈ S.toFinset, ∀ j ∈ S.toFinset, i ≠ j →
      IsUnit (((i : ℕ) : Point) - ((j : ℕ) : Point)) := by
    intro i hi j hj hne
    rw [List.mem_toFinset] at hi hj
    rcases Nat.lt_or_ge j i with hlt | hge
    · have hcop := hdiff i hi j hj hlt
      have hcast : ((i : ℕ) : Point) - ((j : ℕ) : Point) = (((i - j : ℕ)) : Point) :=
        (Nat.cast_sub (le_of_lt hlt)).symm
      rw [hcast]
      exact (ZMod.isUnit_iff_coprime _ _).mpr hcop
    · have hlt2 : i < j := lt_of_le_of_ne hge hne
      have hcop := hdiff j hj i hi hlt2
      have hu2 : IsUnit (((j : ℕ) : Point) - ((i : ℕ) : Point)) := by
        rw [(Nat.cast_sub (le_of_lt hlt2)).symm]
        exact (ZMod.isUnit_iff_coprime _ _).mpr hcop
      have hneg : ((i : ℕ) : Point) - ((j : ℕ) : Point)
          = -(((j : ℕ) : Point) - ((i : ℕ) : Point)) := by ring
      rw [hneg]
      exact hu2.neg
  have hcardS : S.toFinset.card = t := by
    rw [List.toFinset_card_of_nodup hSnd, hScard]
  have hdeg : ((fs.map listToPoly).sum).natDegree < S.toFinset.card := by
    rw [hcardS]
    refine natDegree_list_sum_lt t ht _ ?_
    intro p hp
    obtain ⟨f, hf, rfl⟩ := List.mem_map.mp hp
    have := listToPoly_natDegree f
    have := hflen f hf
    omega
  have hc : ∀ i ∈ S.toFinset,
      ((lagrangeCoefficient i S : ℕ) : Point) *
          (∏ j ∈ S.toFinset.erase i, (((i : ℕ) : Point) - ((j : ℕ) : Point)))
        = ∏ j ∈ S.toFinset.erase i, ((0 : Point) - ((j : ℕ) : Point)) := by
    intro i hi
    have hprodden : (∏ j ∈ S.toFinset.erase i, (((j : ℕ) : Point) - ((i : ℕ) : Point)))
        = ((S.filter (fun j => decide (j ≠ i))).map
            (fun j => ((j : ℕ) : Point) - ((i : ℕ) : Point))).prod :=
      erase_prod_eq_filter S hSnd i _
    have hprodnum : (∏ j ∈ S.toFinset.erase i, ((j : ℕ) : Point))
        = ((S.filter (fun j => decide (j ≠ i))).map (fun j => ((j : ℕ) : Point))).prod :=
      erase_prod_eq_filter S hSnd i _
    have hu : IsUnit (((S.filter (fun j => decide (j ≠ i))).map
        (fun j => ((j : ℕ) : Point) - ((i : ℕ) : Point))).prod) := by
      rw [← hprodden]
      refine isUnit_finset_prod _ _ ?_
      intro j hj
      exact hunit j (Finset.mem_of_mem_erase hj) i hi (Finset.mem_erase.mp hj).1
    have hmain := lagrangeCoefficient_cast i S hu
    rw [← hprodden, ← hprodnum] at hmain
    have hswap : (∏ j ∈ S.toFinset.erase i, (((i : ℕ) : Point) - ((j : ℕ) : Point)))
        = (-1) ^ (S.toFinset.erase i).card *
            ∏ j ∈ S.toFinset.erase i, (((j : ℕ) : Point) - ((i : ℕ) : Point)) := by
      rw [← finset_prod_neg]
      exact Finset.prod_congr rfl (fun j _ => by ring)
    have hzero : (∏ j ∈ S.toFinset.erase i, ((0 : Point) - ((j : ℕ) : Point)))
        = (-1) ^ (S.toFinset.erase i).card *
            ∏ j ∈ S.toFinset.erase i, ((j : ℕ) : Point) := by
      rw [← finset_prod_neg]
      exact Finset.prod_congr rfl (fun j _ => by ring)
    rw [hswap, hzero]
    calc ((lagrangeCoefficient i S : ℕ) : Point) *
          ((-1) ^ (S.toFinset.erase i).card *
            ∏ j ∈ S.toFinset.erase i, (((j : ℕ) : Point) - ((i : ℕ) : Point)))
        = (-1) ^ (S.toFinset.erase i).card *
            (((lagrangeCoefficient i S : ℕ) : Point) *
              ∏ j ∈ S.toFinset.erase i, (((j : ℕ) : Point) - ((i : ℕ) : Point))) := by ring
      _ = (-1) ^ (S.toFinset.erase i).card *
            ∏ j ∈ S.toFinset.erase i, ((j : ℕ) : Point) := by rw [hmain]
  have hinterp := lagrange_eval_zero S.toFinset (fun j => ((j : ℕ) : Point))
    (fun i => ((lagrangeCoefficient i S : ℕ) : Point)) hunit hc
    ((fs.map listToPoly).sum) hdeg
  -- left side: dkgMasterPk
  have hmapne : fs.map (fun f => scalarMulG (f.headD 0)) ≠ [] := by
    intro hcon
    exact hfs (List.map_eq_nil_iff.mp hcon)
  rw [dkgMasterPk, combinePkMaster_sum _ hmapne]
  -- sum of intercepts equals eval of the big polynomial at zero
  have hlhs : (fs.map (fun f => scalarMulG (f.headD 0))).sum
      = ((fs.map listToPoly).sum).eval 0 := by
    have heval := map_list_sum (Polynomial.evalRingHom (0 : Point)) (fs.map listToPoly)
    simp only [Polynomial.coe_evalRingHom] at heval
    rw [heval, List.map_map]
    congr 1
    refine List.map_congr_left ?_
    intro f _
    rw [Function.comp_apply, listToPoly_eval_zero]
    rfl
  -- right side: cast of the Nat sum equals the interpolation sum
  have hrhs : scalarMulG ((S.map
        (fun i => lagrangeCoefficient i S * executeRound4KeyShare fs i)).sum)
      = ∑ i ∈ S.toFinset, ((lagrangeCoefficient i S : ℕ) : Point) *
          ((fs.map listToPoly).sum).eval ((i : ℕ) : Point) := by
    rw [scalarMulG, Nat.cast_list_sum, List.map_map]
    rw [show (∑ i ∈ S.toFinset, ((lagrangeCoefficient i S : ℕ) : Point) *
          ((fs.map listToPoly).sum).eval ((i : ℕ) : Point))
        = (S.map (fun i => ((lagrangeCoefficient i S : ℕ) : Point) *
            ((fs.map listToPoly).sum).eval ((i : ℕ) : Point))).sum
      from List.sum_toFinset _ hSnd]
    refine congrArg List.sum (List.map_congr_left ?_)
    intro i hi
    have hmem := hSmem i hi
    have hlt : i - 1 < fs.length := by omega
    rw [Function.comp_apply, Nat.cast_mul, executeRound4KeyShare_cast fs i hlt]
    congr 1
    have heval := map_list_sum (Polynomial.evalRingHom ((i : ℕ) : Point)) (fs.map listToPoly)
    simp only [Polynomial.coe_evalRingHom] at heval
    rw [heval, List.map_map]
    rfl
  rw [hrhs, hinterp, hlhs]

/-- Witness for claim C1. -/
theorem claim_C1_witness :
    dkgMasterPk [[1, 2], [3, 4]]
      = some (scalarMulG
          (([1, 2].map (fun i =>
            lagrangeCoefficient i [1, 2] * executeRound4KeyShare [[1, 2], [3, 4]] i)).sum)) :=
  claim_C1_threshold_reconstruction [[1, 2], [3, 4]] 2 [1, 2]
    (by decide) (by decide) (by decide) (by decide) (by decide) (by decide) (by decide)

end Clirift
